import Mathlib

/-!
A verification development for the resume-mcp server
(`src/resume_mcp/mcp_server/server.py`): the section-targeted rewrite
protocol.  Texts, paths and file contents are modelled as `List Char`;
the remote Overleaf project is modelled as an association list from
paths to contents.  The inclusion-directive regular expression of
`update_main_tex_with_new_sections` is embedded as an executable
matcher (`matchD`) together with the scan-and-replace loop of
`re.subn` (`subnL`).  Python `re` specifics modelled for the ASCII
texts this server manipulates: the whitespace class is the six ASCII
whitespace characters and `re.IGNORECASE` is ASCII case folding.
-/

namespace RMCP

/-- Texts, file names, paths and file contents are lists of characters. -/
abbrev Str := List Char

/-- ASCII whitespace, the characters matched by the regex whitespace class
in the inclusion-directive pattern. -/
def isWsC (c : Char) : Bool :=
  c == ' ' || c == '\t' || c == '\n' || c == '\r' || c == '\x0b' || c == '\x0c'

/-- The character class `a-zA-Z0-9_.-` used for the optional tailoring
suffix in the inclusion-directive pattern. -/
def isCls (c : Char) : Bool :=
  ('a' ≤ c && c ≤ 'z') || ('A' ≤ c && c ≤ 'Z') || ('0' ≤ c && c ≤ '9') ||
    c == '_' || c == '.' || c == '-'

/-- ASCII-lowered character code: `re.IGNORECASE` folding on ASCII text. -/
def lcN (c : Char) : Nat :=
  if 65 ≤ c.toNat ∧ c.toNat ≤ 90 then c.toNat + 32 else c.toNat

/-- Case-insensitive character comparison (pattern char against text char). -/
def eqCI (p c : Char) : Bool := lcN p == lcN c

/-- Case-insensitive image of a text. -/
def lowerL (s : Str) : List Nat := s.map lcN

/-- Two texts are equal up to ASCII case. -/
def ciEqL (a b : Str) : Prop := lowerL a = lowerL b

/-- The literal `.tex` of the inclusion-directive pattern. -/
def litDotTex : Str := ".tex".toList

/-- The literal `\input` of the inclusion-directive pattern. -/
def litInput : Str := "\\input".toList

/-- The literal `sections/` of the inclusion-directive pattern. -/
def litSections : Str := "sections/".toList

/-- Match a literal pattern fragment case-insensitively at the front of the
text; returns the consumed text and the remainder. -/
def mLit : Str → Str → Option (Str × Str)
  | [], t => some ([], t)
  | _ :: _, [] => none
  | p :: ps, c :: cs =>
    if eqCI p c then (mLit ps cs).map (fun pr => (c :: pr.1, pr.2)) else none

/-- Match the directive tail `.tex`, optional whitespace, closing brace. -/
def mTail (t : Str) : Option (Str × Str) :=
  (mLit litDotTex t).bind fun pr =>
    let w := pr.2.takeWhile isWsC
    match pr.2.dropWhile isWsC with
    | c :: r => if c = '\x7d' then some (pr.1 ++ w ++ ['\x7d'], r) else none
    | [] => none

/-- Greedy backtracking of the starred suffix class: try consuming `k`
characters of the maximal class run, counting down until the tail matches. -/
def mBack (run rest0 : Str) : Nat → Option (Str × Str)
  | 0 =>
    match mTail (run.drop 0 ++ rest0) with
    | some pr => some (run.take 0 ++ pr.1, pr.2)
    | none => none
  | k + 1 =>
    match mTail (run.drop (k + 1) ++ rest0) with
    | some pr => some (run.take (k + 1) ++ pr.1, pr.2)
    | none => mBack run rest0 k

/-- The optional greedy tailoring-suffix group followed by the directive
tail. -/
def mSuf : Str → Option (Str × Str)
  | c :: u =>
    if c = '-' then
      let run := u.takeWhile isCls
      let rest0 := u.dropWhile isCls
      (match mBack run rest0 run.length with
       | some pr => some ('-' :: pr.1, pr.2)
       | none => mTail (c :: u))
    else mTail (c :: u)
  | [] => mTail []

/-- Match `sections/`, the section name, then suffix and tail. -/
def mNoDot (base t : Str) : Option (Str × Str) :=
  (mLit litSections t).bind fun p1 =>
    (mLit base p1.2).bind fun p2 =>
      (mSuf p2.2).map fun p3 => (p1.1 ++ p2.1 ++ p3.1, p3.2)

/-- After the opening brace: optional whitespace, the optional `./` group
(greedy), then `sections/`, name, suffix and tail. -/
def mAfterBrace (base t : Str) : Option (Str × Str) :=
  let w2 := t.takeWhile isWsC
  let r := t.dropWhile isWsC
  let res : Option (Str × Str) :=
    match r with
    | c1 :: c2 :: r2 =>
      if c1 = '.' ∧ c2 = '/' then
        (match (mNoDot base r2).map (fun p : Str × Str => ('.' :: '/' :: p.1, p.2)) with
         | some pr => some pr
         | none => mNoDot base r)
      else mNoDot base r
    | _ => mNoDot base r
  res.map fun p : Str × Str => (w2 ++ p.1, p.2)

/-- The compiled inclusion-directive pattern of
`update_main_tex_with_new_sections`, as a matcher at the front of a text:
returns the consumed directive text and the remainder. -/
def matchD (base t : Str) : Option (Str × Str) :=
  (mLit litInput t).bind fun p1 =>
    let w1 := p1.2.takeWhile isWsC
    match p1.2.dropWhile isWsC with
    | c :: r2 =>
      if c = '\x7b' then
        (mAfterBrace base r2).map fun p : Str × Str =>
          (p1.1 ++ w1 ++ '\x7b' :: p.1, p.2)
      else none
    | [] => none

/-- Whitespace-only text. -/
def allWsL (w : Str) : Prop := ∀ c ∈ w, isWsC c = true

/-- Suffix-class-only text. -/
def allClsL (s : Str) : Prop := ∀ c ∈ s, isCls c = true

/-- The tail of an inclusion directive: `.tex`, optional whitespace,
closing brace, case-insensitively. -/
def tailPart (d : Str) : Prop :=
  ∃ tx w3, ciEqL tx litDotTex ∧ allWsL w3 ∧ d = tx ++ w3 ++ ['\x7d']

/-- An optional `-suffix` of filename characters followed by the tail. -/
def sufTail (d : Str) : Prop :=
  ∃ sf d', (sf = [] ∨ ∃ cs, sf = '-' :: cs ∧ allClsL cs) ∧ tailPart d' ∧ d = sf ++ d'

/-- The `sections/` marker, the logical-section name and the suffixed tail. -/
def secPart (base d : Str) : Prop :=
  ∃ sb b rest, ciEqL sb litSections ∧ ciEqL b base ∧ sufTail rest ∧
    d = sb ++ b ++ rest

/-- The inclusion-directive grammar from the specification: `\input`,
optional whitespace, opening brace, optional whitespace, an optional `./`
relative-path marker, `sections/`, the logical-section name, an optional
`-suffix` of filename characters, `.tex`, optional whitespace, closing
brace — case-insensitively. -/
def isDirective (base d : Str) : Prop :=
  ∃ i w1 w2 dt rest,
    ciEqL i litInput ∧ allWsL w1 ∧ allWsL w2 ∧
    (dt = [] ∨ dt = ['.', '/']) ∧ secPart base rest ∧
    d = i ++ w1 ++ '\x7b' :: (w2 ++ dt ++ rest)

theorem eqCI_iff {p c : Char} : eqCI p c = true ↔ lcN p = lcN c := by
  simp [eqCI]

theorem lowerL_nil_inv {s : Str} (h : lowerL s = []) : s = [] := by
  cases s with
  | nil => rfl
  | cons c cs => simp [lowerL] at h

theorem lowerL_cons_inv {s : Str} {n : Nat} {ns : List Nat}
    (h : lowerL s = n :: ns) : ∃ c s', s = c :: s' ∧ lcN c = n ∧ lowerL s' = ns := by
  cases s with
  | nil => simp [lowerL] at h
  | cons c cs =>
    simp [lowerL] at h
    exact ⟨c, cs, rfl, h.1, h.2⟩

theorem takeWhile_append_all {P : Char → Bool} :
    ∀ (w : Str), (∀ c ∈ w, P c = true) → ∀ (c : Char), P c = false → ∀ (t : Str),
    (w ++ c :: t).takeWhile P = w ∧ (w ++ c :: t).dropWhile P = c :: t := by
  intro w
  induction w with
  | nil =>
    intro _ c hc t
    constructor
    · simp [List.takeWhile, hc]
    · simp [List.dropWhile, hc]
  | cons a w' ih =>
    intro hw c hc t
    have ha : P a = true := hw a (List.mem_cons_self a w')
    have ih' := ih (fun x hx => hw x (List.mem_cons_of_mem a hx)) c hc t
    constructor
    · simp [List.takeWhile, ha, ih'.1]
    · simp [List.dropWhile, ha, ih'.2]

theorem mLit_split : ∀ (lit t d r : Str), mLit lit t = some (d, r) →
    t = d ++ r ∧ d.length = lit.length ∧ ciEqL d lit := by
  intro lit
  induction lit with
  | nil =>
    intro t d r h
    simp [mLit] at h
    obtain ⟨hd, hr⟩ := h
    subst hd; subst hr
    exact ⟨rfl, rfl, rfl⟩
  | cons p ps ih =>
    intro t d r h
    cases t with
    | nil => simp [mLit] at h
    | cons c cs =>
      simp only [mLit] at h
      by_cases hpc : eqCI p c
      · rw [if_pos hpc] at h
        cases hm : mLit ps cs with
        | none => rw [hm] at h; simp at h
        | some pr =>
          rw [hm] at h
          simp only [Option.map_some'] at h
          obtain ⟨hd, hr⟩ := Prod.mk.injEq .. ▸ Option.some.injEq .. ▸ h
          obtain ⟨hcs, hlen, hci⟩ := ih cs pr.1 pr.2 (by rw [hm])
          subst hr
          constructor
          · rw [← hd]; simp [hcs]
          constructor
          · rw [← hd]; simp [hlen]
          · rw [← hd]
            have hlc : lcN p = lcN c := eqCI_iff.mp hpc
            simp [ciEqL, lowerL] at hci ⊢
            exact ⟨hlc.symm, hci⟩
      · rw [if_neg hpc] at h
        exact absurd h (by simp)

theorem mTail_split {t d r : Str} (h : mTail t = some (d, r)) :
    t = d ++ r ∧ d ≠ [] ∧ tailPart d := by
  unfold mTail at h
  cases hm : mLit litDotTex t with
  | none => rw [hm] at h; simp at h
  | some pr =>
    rw [hm] at h
    simp only [Option.some_bind] at h
    obtain ⟨ht, hlen, hci⟩ := mLit_split litDotTex t pr.1 pr.2 hm
    split at h
    · rename_i c rest hdw
      split at h
      · rename_i hc
        subst hc
        simp only [Option.some.injEq, Prod.mk.injEq] at h
        obtain ⟨hd, hr⟩ := h
        subst hd; subst hr
        have hsplit : pr.2.takeWhile isWsC ++ pr.2.dropWhile isWsC = pr.2 :=
          List.takeWhile_append_dropWhile _ _
        have hws : allWsL (pr.2.takeWhile isWsC) := by
          intro x hx
          exact List.mem_takeWhile_imp hx
        have pr2eq : pr.2 = pr.2.takeWhile isWsC ++ '\x7d' :: rest := by
          conv_lhs => rw [← hsplit]
          rw [hdw]
        refine ⟨?_, by simp, pr.1, pr.2.takeWhile isWsC, hci, hws, by simp⟩
        calc t = pr.1 ++ pr.2 := ht
          _ = pr.1 ++ (pr.2.takeWhile isWsC ++ '\x7d' :: rest) := by rw [← pr2eq]
          _ = (pr.1 ++ pr.2.takeWhile isWsC ++ ['\x7d']) ++ rest := by simp
      · exact absurd h (by simp)
    · exact absurd h (by simp)

theorem mBack_split {run rest0 : Str} :
    ∀ (k : Nat) {d r : Str}, mBack run rest0 k = some (d, r) →
    ∃ j d', j ≤ k ∧ d = run.take j ++ d' ∧
      mTail (run.drop j ++ rest0) = some (d', r) := by
  intro k
  induction k with
  | zero =>
    intro d r h
    unfold mBack at h
    cases hm : mTail (run.drop 0 ++ rest0) with
    | none => rw [hm] at h; simp at h
    | some pr =>
      rw [hm] at h
      simp only [Option.some.injEq] at h
      injection h with h1 h2
      subst h1; subst h2
      exact ⟨0, pr.1, Nat.le_refl 0, rfl, hm⟩
  | succ k ih =>
    intro d r h
    unfold mBack at h
    cases hm : mTail (run.drop (k + 1) ++ rest0) with
    | none =>
      rw [hm] at h
      obtain ⟨j, d', hj, hd, hm'⟩ := ih h
      exact ⟨j, d', Nat.le_succ_of_le hj, hd, hm'⟩
    | some pr =>
      rw [hm] at h
      simp only [Option.some.injEq] at h
      injection h with h1 h2
      subst h1; subst h2
      exact ⟨k + 1, pr.1, Nat.le_refl _, rfl, hm⟩

theorem sufTail_of_mTail {t d r : Str} (h : mTail t = some (d, r)) :
    t = d ++ r ∧ sufTail d :=
  ⟨(mTail_split h).1, [], d, Or.inl rfl, (mTail_split h).2.2, by simp⟩

theorem mSuf_split {t d r : Str} (h : mSuf t = some (d, r)) :
    t = d ++ r ∧ sufTail d := by
  cases t with
  | nil =>
    simp only [mSuf] at h
    exact sufTail_of_mTail h
  | cons c u =>
    simp only [mSuf] at h
    by_cases hc : c = '-'
    · rw [if_pos hc] at h
      subst hc
      cases hb : mBack (u.takeWhile isCls) (u.dropWhile isCls)
          (u.takeWhile isCls).length with
      | none =>
        rw [hb] at h
        exact sufTail_of_mTail h
      | some pr =>
        rw [hb] at h
        injection h with hp
        injection hp with h1 h2
        subst h1; subst h2
        obtain ⟨j, d', hj, hd, hm⟩ := mBack_split _ hb
        obtain ⟨hsplit, _, htp⟩ := mTail_split hm
        have hu : u = (u.takeWhile isCls).take j ++ (d' ++ pr.2) := by
          rw [← hsplit, ← List.append_assoc, List.take_append_drop,
            List.takeWhile_append_dropWhile]
        have hcls : allClsL ((u.takeWhile isCls).take j) := by
          intro x hx
          exact List.mem_takeWhile_imp (List.mem_of_mem_take hx)
        constructor
        · rw [hu, hd]
          simp
        · exact ⟨'-' :: (u.takeWhile isCls).take j, d',
            Or.inr ⟨_, rfl, hcls⟩, htp, by simp [hd]⟩
    · rw [if_neg hc] at h
      exact sufTail_of_mTail h

theorem mNoDot_split {base t d r : Str} (h : mNoDot base t = some (d, r)) :
    t = d ++ r ∧ secPart base d := by
  unfold mNoDot at h
  cases h1 : mLit litSections t with
  | none => rw [h1] at h; simp at h
  | some p1 =>
    rw [h1] at h
    simp only [Option.some_bind] at h
    cases h2 : mLit base p1.2 with
    | none => rw [h2] at h; simp at h
    | some p2 =>
      rw [h2] at h
      simp only [Option.some_bind] at h
      cases h3 : mSuf p2.2 with
      | none => rw [h3] at h; simp at h
      | some p3 =>
        rw [h3] at h
        simp only [Option.map_some', Option.some.injEq] at h
        injection h with hd hr
        subst hd; subst hr
        obtain ⟨ht1, _, hci1⟩ := mLit_split litSections t p1.1 p1.2 h1
        obtain ⟨ht2, _, hci2⟩ := mLit_split base p1.2 p2.1 p2.2 h2
        obtain ⟨ht3, hst⟩ := mSuf_split h3
        constructor
        · rw [ht1, ht2, ht3]
          simp
        · exact ⟨p1.1, p2.1, p3.1, hci1, hci2, hst, rfl⟩

theorem mAfterBrace_split {base t d r : Str} (h : mAfterBrace base t = some (d, r)) :
    t = d ++ r ∧ ∃ w2 dt rest, allWsL w2 ∧ (dt = [] ∨ dt = ['.', '/']) ∧
      secPart base rest ∧ d = w2 ++ dt ++ rest := by
  unfold mAfterBrace at h
  simp only [Option.map_eq_some'] at h
  obtain ⟨p, hp, hmap⟩ := h
  injection hmap with hd hr
  subst hd; subst hr
  have hws : allWsL (t.takeWhile isWsC) := fun x hx => List.mem_takeWhile_imp hx
  have hsplit : t = t.takeWhile isWsC ++ t.dropWhile isWsC :=
    (List.takeWhile_append_dropWhile _ _).symm
  have main : t.dropWhile isWsC = p.1 ++ p.2 ∧ ∃ dt rest,
      (dt = [] ∨ dt = ['.', '/']) ∧ secPart base rest ∧ p.1 = dt ++ rest := by
    split at hp
    · rename_i c1 c2 r2 hr0
      by_cases hcs : c1 = '.' ∧ c2 = '/'
      · rw [if_pos hcs] at hp
        obtain ⟨hc1, hc2⟩ := hcs
        subst hc1; subst hc2
        cases hnd : mNoDot base r2 with
        | none =>
          rw [hnd] at hp
          simp only [Option.map_none'] at hp
          obtain ⟨hnd0, hsec⟩ := mNoDot_split hp
          exact ⟨hnd0, [], p.1, Or.inl rfl, hsec, by simp⟩
        | some q =>
          rw [hnd] at hp
          simp only [Option.map_some', Option.some.injEq] at hp
          obtain ⟨hq0, hsec⟩ := mNoDot_split hnd
          refine ⟨?_, ['.', '/'], q.1, Or.inr rfl, hsec, by rw [← hp]; simp⟩
          rw [hr0, ← hp]
          simp [hq0]
      · rw [if_neg hcs] at hp
        obtain ⟨hnd0, hsec⟩ := mNoDot_split hp
        exact ⟨hnd0, [], p.1, Or.inl rfl, hsec, by simp⟩
    · obtain ⟨hnd0, hsec⟩ := mNoDot_split hp
      exact ⟨hnd0, [], p.1, Or.inl rfl, hsec, by simp⟩
  obtain ⟨hdw, dt, rest, hdt, hsec, hp1⟩ := main
  constructor
  · conv_lhs => rw [hsplit]
    rw [hdw]
    simp
  · exact ⟨t.takeWhile isWsC, dt, rest, hws, hdt, hsec, by rw [hp1]; simp⟩

theorem matchD_sound {base t d r : Str} (h : matchD base t = some (d, r)) :
    t = d ++ r ∧ isDirective base d := by
  unfold matchD at h
  cases h1 : mLit litInput t with
  | none => rw [h1] at h; simp at h
  | some p1 =>
    rw [h1] at h
    simp only [Option.some_bind] at h
    obtain ⟨ht1, _, hci1⟩ := mLit_split litInput t p1.1 p1.2 h1
    have hws : allWsL (p1.2.takeWhile isWsC) := fun x hx => List.mem_takeWhile_imp hx
    have hsplit : p1.2 = p1.2.takeWhile isWsC ++ p1.2.dropWhile isWsC :=
      (List.takeWhile_append_dropWhile _ _).symm
    split at h
    · rename_i c r2 hdw
      by_cases hc : c = '\x7b'
      · rw [if_pos hc] at h
        subst hc
        simp only [Option.map_eq_some'] at h
        obtain ⟨p, hp, hmap⟩ := h
        injection hmap with hd hr
        subst hd; subst hr
        obtain ⟨hr2, w2, dt, rest, hw2, hdt, hsec, hp1⟩ := mAfterBrace_split hp
        constructor
        · conv_lhs => rw [ht1, hsplit, hdw]
          rw [hr2]
          simp
        · exact ⟨p1.1, p1.2.takeWhile isWsC, w2, dt, rest, hci1, hws, hw2, hdt,
            hsec, by rw [hp1]⟩
      · rw [if_neg hc] at h
        simp at h
    · simp at h

theorem matchD_split {base t d r : Str} (h : matchD base t = some (d, r)) :
    t = d ++ r ∧ d ≠ [] := by
  obtain ⟨ht, hdir⟩ := matchD_sound h
  refine ⟨ht, ?_⟩
  obtain ⟨i, w1, w2, dt, rest, _, _, _, _, _, hd⟩ := hdir
  rw [hd]
  simp

/-- The scan-and-replace loop of `re.subn` with explicit fuel: scan the
text left to right, at each position try the pattern; on a match emit the
replacement and continue after the match, otherwise emit the character and
move on.  A match consumes at least one character, so fuel equal to the
text length is always sufficient (`subnGo_fuel`). -/
def subnGo (base repl : Str) : Nat → Str → Str × Nat
  | _, [] => ([], 0)
  | 0, c :: cs => (c :: cs, 0)
  | fuel + 1, c :: cs =>
    match matchD base (c :: cs) with
    | some pr =>
      let p := subnGo base repl fuel pr.2
      (repl ++ p.1, p.2 + 1)
    | none =>
      let p := subnGo base repl fuel cs
      (c :: p.1, p.2)

/-- `pattern.subn(repl, text)`: the new text and the replacement count. -/
def subnL (base repl : Str) (t : Str) : Str × Nat :=
  subnGo base repl t.length t

theorem subnGo_fuel {base repl : Str} :
    ∀ (fuel : Nat) (t : Str), t.length ≤ fuel →
    subnGo base repl fuel t = subnGo base repl t.length t := by
  intro fuel
  induction fuel using Nat.strong_induction_on with
  | _ fuel ih =>
    intro t hle
    cases t with
    | nil =>
      cases fuel <;> rfl
    | cons c cs =>
      cases fuel with
      | zero => simp at hle
      | succ f =>
        show (match matchD base (c :: cs) with
          | some pr =>
            let p := subnGo base repl f pr.2
            (repl ++ p.1, p.2 + 1)
          | none =>
            let p := subnGo base repl f cs
            (c :: p.1, p.2)) = (match matchD base (c :: cs) with
          | some pr =>
            let p := subnGo base repl cs.length pr.2
            (repl ++ p.1, p.2 + 1)
          | none =>
            let p := subnGo base repl cs.length cs
            (c :: p.1, p.2))
        cases hm : matchD base (c :: cs) with
        | some pr =>
          obtain ⟨ht, hne⟩ := matchD_split hm
          have hlen := congrArg List.length ht
          rw [List.length_append] at hlen
          have hpos := List.length_pos.mpr hne
          simp only [List.length_cons] at hlen hle
          have h1 : subnGo base repl f pr.2 = subnGo base repl pr.2.length pr.2 :=
            ih f (by omega) pr.2 (by omega)
          have h2 : subnGo base repl cs.length pr.2 =
              subnGo base repl pr.2.length pr.2 :=
            ih cs.length (by omega) pr.2 (by omega)
          change (repl ++ (subnGo base repl f pr.2).1,
              (subnGo base repl f pr.2).2 + 1) =
            (repl ++ (subnGo base repl cs.length pr.2).1,
              (subnGo base repl cs.length pr.2).2 + 1)
          rw [h1, h2]
        | none =>
          simp only [List.length_cons] at hle
          have h1 : subnGo base repl f cs = subnGo base repl cs.length cs :=
            ih f (by omega) cs (by omega)
          change (c :: (subnGo base repl f cs).1, (subnGo base repl f cs).2) =
            (c :: (subnGo base repl cs.length cs).1, (subnGo base repl cs.length cs).2)
          rw [h1]

theorem char_eq_of_toNat {c c' : Char} (h : c.toNat = c'.toNat) : c = c' := by
  have hc := congrArg Char.ofNat h
  rwa [Char.ofNat_toNat, Char.ofNat_toNat] at hc

theorem lcN_cases {c : Char} {n : Nat} (h : lcN c = n) :
    c.toNat = n ∨ (c.toNat + 32 = n ∧ 65 ≤ c.toNat ∧ c.toNat ≤ 90) := by
  unfold lcN at h
  split at h
  · rename_i hr
    exact Or.inr ⟨h, hr.1, hr.2⟩
  · exact Or.inl h

theorem lcN_fix {c : Char} {n : Nat} (h : lcN c = n) (hn : n < 97 ∨ 122 < n) :
    c.toNat = n := by
  rcases lcN_cases h with h' | ⟨h', h65, h90⟩
  · exact h'
  · omega

theorem ne_of_lcN {c c' : Char} {n : Nat} (h : lcN c = n) (h' : lcN c' ≠ n) :
    c ≠ c' := fun he => h' (he ▸ h)

theorem char_eq_lit {c : Char} {n : Nat} (h : c.toNat = n) (c' : Char)
    (h' : c'.toNat = n) : c = c' :=
  char_eq_of_toNat (h.trans h'.symm)

theorem isWsC_cases {c : Char} (h : isWsC c = true) :
    c = ' ' ∨ c = '\t' ∨ c = '\n' ∨ c = '\r' ∨ c = '\x0b' ∨ c = '\x0c' := by
  simp [isWsC] at h
  tauto

theorem isCls_false_of_isWsC {c : Char} (h : isWsC c = true) : isCls c = false := by
  rcases isWsC_cases h with rfl | rfl | rfl | rfl | rfl | rfl <;> decide

theorem lcN_ws_ne {c : Char} (h : isWsC c = true) {n : Nat}
    (hn : n = 46 ∨ n = 115) : lcN c ≠ n := by
  rcases isWsC_cases h with rfl | rfl | rfl | rfl | rfl | rfl <;>
    rcases hn with rfl | rfl <;> decide

theorem mem_lowerL {c : Char} {s : Str} (h : c ∈ s) : lcN c ∈ lowerL s :=
  List.mem_map_of_mem lcN h

theorem allCls_of_ciEq_dotTex {tx : Str} (htx : ciEqL tx litDotTex) :
    allClsL tx := by
  intro c hc
  have hm : lcN c ∈ lowerL litDotTex := htx ▸ mem_lowerL hc
  have hcodes : lowerL litDotTex = [46, 116, 101, 120] := by decide
  rw [hcodes] at hm
  simp at hm
  rcases hm with h | h | h | h
  · rcases lcN_cases h with h' | ⟨h', h65, h90⟩
    · rw [char_eq_lit h' '.' (by decide)]; decide
    · omega
  · rcases lcN_cases h with h' | ⟨h', h65, h90⟩
    · rw [char_eq_lit h' 't' (by decide)]; decide
    · rw [char_eq_lit (show c.toNat = 84 by omega) 'T' (by decide)]; decide
  · rcases lcN_cases h with h' | ⟨h', h65, h90⟩
    · rw [char_eq_lit h' 'e' (by decide)]; decide
    · rw [char_eq_lit (show c.toNat = 69 by omega) 'E' (by decide)]; decide
  · rcases lcN_cases h with h' | ⟨h', h65, h90⟩
    · rw [char_eq_lit h' 'x' (by decide)]; decide
    · rw [char_eq_lit (show c.toNat = 88 by omega) 'X' (by decide)]; decide

theorem takeWhile_append_left {P : Char → Bool} :
    ∀ (a b : Str), (∀ c ∈ a, P c = true) →
    (a ++ b).takeWhile P = a ++ b.takeWhile P ∧
      (a ++ b).dropWhile P = b.dropWhile P := by
  intro a
  induction a with
  | nil => intro b _; simp
  | cons x a' ih =>
    intro b ha
    have hx : P x = true := ha x (List.mem_cons_self x a')
    have ih' := ih b (fun c hc => ha c (List.mem_cons_of_mem x hc))
    constructor
    · simp [List.takeWhile, hx, ih'.1]
    · simp [List.dropWhile, hx, ih'.2]

theorem takeWhile_stop {P : Char → Bool} {c : Char} (hc : P c = false) (t : Str) :
    (c :: t).takeWhile P = [] ∧ (c :: t).dropWhile P = c :: t := by
  constructor
  · simp [List.takeWhile, hc]
  · simp [List.dropWhile, hc]

theorem mLit_exact : ∀ (lit i : Str), ciEqL i lit → ∀ t, mLit lit (i ++ t) = some (i, t) := by
  intro lit
  induction lit with
  | nil =>
    intro i hci t
    rw [lowerL_nil_inv hci]
    rfl
  | cons p ps ih =>
    intro i hci t
    obtain ⟨c, i', rfl, hc, hci'⟩ := lowerL_cons_inv hci
    have he : eqCI p c = true := eqCI_iff.mpr hc.symm
    simp only [List.cons_append, mLit, he, if_pos, List.append_eq]
    rw [ih i' hci' t]
    rfl

theorem mTail_exact {tx w3 : Str} (htx : ciEqL tx litDotTex) (hw3 : allWsL w3)
    (t : Str) : mTail (tx ++ (w3 ++ '\x7d' :: t)) = some (tx ++ w3 ++ ['\x7d'], t) := by
  unfold mTail
  rw [mLit_exact litDotTex tx htx (w3 ++ '\x7d' :: t)]
  simp only [Option.some_bind]
  obtain ⟨htw, hdw⟩ := takeWhile_append_all w3 hw3 '\x7d' (by decide) t
  rw [htw, hdw]
  simp

theorem mTail_none_head {c : Char} (h : lcN c ≠ 46) (rest : Str) :
    mTail (c :: rest) = none := by
  unfold mTail
  have hlit : litDotTex = '.' :: 't' :: 'e' :: 'x' :: [] := by decide
  rw [hlit]
  have : eqCI '.' c = false := by
    simp [eqCI]
    intro hc
    exact h hc.symm
  simp [mLit, this]

theorem mTail_nil : mTail [] = none := by decide

theorem mBack_hit {run rest0 : Str} {k : Nat} {d r : Str}
    (h : mTail (run.drop k ++ rest0) = some (d, r)) :
    mBack run rest0 k = some (run.take k ++ d, r) := by
  cases k with
  | zero => unfold mBack; rw [h]
  | succ k' => unfold mBack; rw [h]

theorem mBack_succ_none {run rest0 : Str} {k : Nat}
    (h : mTail (run.drop (k + 1) ++ rest0) = none) :
    mBack run rest0 (k + 1) = mBack run rest0 k := by
  conv_lhs => unfold mBack
  rw [h]

theorem drop_add_left {α : Type} : ∀ (a : List α) (b : List α) (j : Nat),
    (a ++ b).drop (a.length + j) = b.drop j := by
  intro a
  induction a with
  | nil => intro b j; simp
  | cons x a' ih =>
    intro b j
    simp only [List.cons_append, List.length_cons]
    rw [show a'.length + 1 + j = (a'.length + j) + 1 by omega]
    simp only [List.drop_succ_cons]
    exact ih b j

theorem isWsC_false_of_lcN {c : Char} {n : Nat} (h : lcN c = n)
    (hn : n = 46 ∨ n = 115) : isWsC c = false := by
  by_cases hw : isWsC c = true
  · exact absurd h (lcN_ws_ne hw hn)
  · simpa using hw

theorem tx_destruct {tx : Str} (htx : ciEqL tx litDotTex) :
    ∃ c0 c1 c2 c3, tx = [c0, c1, c2, c3] ∧
      lcN c0 = 46 ∧ lcN c1 = 116 ∧ lcN c2 = 101 ∧ lcN c3 = 120 := by
  have h : lowerL tx = [46, 116, 101, 120] := by
    rw [htx]; decide
  obtain ⟨c0, s0, rfl, h0, h⟩ := lowerL_cons_inv h
  obtain ⟨c1, s1, rfl, h1, h⟩ := lowerL_cons_inv h
  obtain ⟨c2, s2, rfl, h2, h⟩ := lowerL_cons_inv h
  obtain ⟨c3, s3, rfl, h3, h⟩ := lowerL_cons_inv h
  rw [lowerL_nil_inv h]
  exact ⟨c0, c1, c2, c3, rfl, h0, h1, h2, h3⟩

theorem rest0_head_not_cls {w3 : Str} (hw3 : allWsL w3) (t : Str) :
    (w3 ++ '\x7d' :: t).takeWhile isCls = [] ∧
      (w3 ++ '\x7d' :: t).dropWhile isCls = w3 ++ '\x7d' :: t := by
  cases w3 with
  | nil => exact takeWhile_stop (by decide) t
  | cons wc w3' =>
    have : isCls wc = false :=
      isCls_false_of_isWsC (hw3 wc (List.mem_cons_self wc w3'))
    exact takeWhile_stop this _

theorem mTail_rest0_none {w3 : Str} (hw3 : allWsL w3) (t : Str) :
    mTail (w3 ++ '\x7d' :: t) = none := by
  cases w3 with
  | nil => exact mTail_none_head (by decide) t
  | cons wc w3' =>
    have : lcN wc ≠ 46 :=
      lcN_ws_ne (hw3 wc (List.mem_cons_self wc w3')) (Or.inl rfl)
    exact mTail_none_head this _

theorem mSuf_exact_dash {cs tx w3 : Str} (hcs : allClsL cs)
    (htx : ciEqL tx litDotTex) (hw3 : allWsL w3) (t : Str) :
    mSuf ('-' :: (cs ++ (tx ++ (w3 ++ '\x7d' :: t)))) =
      some ('-' :: (cs ++ (tx ++ (w3 ++ ['\x7d']))), t) := by
  obtain ⟨c0, c1, c2, c3, rfl, h0, h1, h2, h3⟩ := tx_destruct htx
  have htxcls : allClsL [c0, c1, c2, c3] := allCls_of_ciEq_dotTex htx
  have hstop := rest0_head_not_cls hw3 t
  -- compute the maximal class run and the stop point of the scrutinee
  have hTW : ∀ u, u = cs ++ ([c0, c1, c2, c3] ++ (w3 ++ '\x7d' :: t)) →
      u.takeWhile isCls = cs ++ [c0, c1, c2, c3] ∧
        u.dropWhile isCls = w3 ++ '\x7d' :: t := by
    intro u hu
    subst hu
    obtain ⟨ht1, hd1⟩ := takeWhile_append_left cs
      ([c0, c1, c2, c3] ++ (w3 ++ '\x7d' :: t)) hcs
    obtain ⟨ht2, hd2⟩ := takeWhile_append_left [c0, c1, c2, c3]
      (w3 ++ '\x7d' :: t) htxcls
    rw [ht1, hd1, ht2, hd2, hstop.1, hstop.2]
    simp
  obtain ⟨hrunEq, hrest0Eq⟩ := hTW _ rfl
  simp only [mSuf, if_pos rfl]
  rw [hrunEq, hrest0Eq]
  have hlen : (cs ++ [c0, c1, c2, c3]).length = cs.length + 4 := by simp
  rw [hlen]
  have hdropj : ∀ j, (cs ++ [c0, c1, c2, c3]).drop (cs.length + j) =
      ([c0, c1, c2, c3] : Str).drop j := fun j => drop_add_left cs _ j
  have hn4 : mTail ((cs ++ [c0, c1, c2, c3]).drop (cs.length + 4) ++
      (w3 ++ '\x7d' :: t)) = none := by
    rw [hdropj 4]
    simpa using mTail_rest0_none hw3 t
  have hn3 : mTail ((cs ++ [c0, c1, c2, c3]).drop (cs.length + 3) ++
      (w3 ++ '\x7d' :: t)) = none := by
    rw [hdropj 3]
    exact mTail_none_head (by rw [h3]; decide) _
  have hn2 : mTail ((cs ++ [c0, c1, c2, c3]).drop (cs.length + 2) ++
      (w3 ++ '\x7d' :: t)) = none := by
    rw [hdropj 2]
    exact mTail_none_head (by rw [h2]; decide) _
  have hn1 : mTail ((cs ++ [c0, c1, c2, c3]).drop (cs.length + 1) ++
      (w3 ++ '\x7d' :: t)) = none := by
    rw [hdropj 1]
    exact mTail_none_head (by rw [h1]; decide) _
  have hhit : mTail ((cs ++ [c0, c1, c2, c3]).drop cs.length ++
      (w3 ++ '\x7d' :: t)) = some ([c0, c1, c2, c3] ++ w3 ++ ['\x7d'], t) := by
    have : (cs ++ [c0, c1, c2, c3]).drop cs.length = [c0, c1, c2, c3] :=
      List.drop_left cs _
    rw [this]
    exact mTail_exact htx hw3 t
  have hchain : mBack (cs ++ [c0, c1, c2, c3]) (w3 ++ '\x7d' :: t)
      (cs.length + 4) = some (cs ++ ([c0, c1, c2, c3] ++ w3 ++ ['\x7d']), t) := by
    rw [show cs.length + 4 = (cs.length + 3) + 1 by omega, mBack_succ_none (by
      rw [show cs.length + 3 + 1 = cs.length + 4 by omega]; exact hn4)]
    rw [show cs.length + 3 = (cs.length + 2) + 1 by omega, mBack_succ_none (by
      rw [show cs.length + 2 + 1 = cs.length + 3 by omega]; exact hn3)]
    rw [show cs.length + 2 = (cs.length + 1) + 1 by omega, mBack_succ_none (by
      rw [show cs.length + 1 + 1 = cs.length + 2 by omega]; exact hn2)]
    rw [show cs.length + 1 = cs.length + 1 by rfl, mBack_succ_none hn1]
    rw [mBack_hit hhit]
    rw [List.take_left]
  rw [hchain]
  simp

theorem mSuf_exact {sf tx w3 : Str}
    (hsf : sf = [] ∨ ∃ cs, sf = '-' :: cs ∧ allClsL cs)
    (htx : ciEqL tx litDotTex) (hw3 : allWsL w3) (t : Str) :
    mSuf (sf ++ (tx ++ (w3 ++ '\x7d' :: t))) =
      some (sf ++ (tx ++ (w3 ++ ['\x7d'])), t) := by
  rcases hsf with rfl | ⟨cs, rfl, hcs⟩
  · obtain ⟨c0, c1, c2, c3, rfl, h0, h1, h2, h3⟩ := tx_destruct htx
    have hne : c0 ≠ '-' := ne_of_lcN h0 (by decide)
    simp only [List.nil_append, List.cons_append, mSuf, if_neg hne]
    have := mTail_exact htx hw3 t
    simpa using this
  · have := mSuf_exact_dash hcs htx hw3 t
    simpa using this

theorem mNoDot_exact {base sb b sf tx w3 : Str}
    (hsb : ciEqL sb litSections) (hb : ciEqL b base)
    (hsf : sf = [] ∨ ∃ cs, sf = '-' :: cs ∧ allClsL cs)
    (htx : ciEqL tx litDotTex) (hw3 : allWsL w3) (t : Str) :
    mNoDot base (sb ++ (b ++ (sf ++ (tx ++ (w3 ++ '\x7d' :: t))))) =
      some (sb ++ (b ++ (sf ++ (tx ++ (w3 ++ ['\x7d'])))), t) := by
  unfold mNoDot
  rw [mLit_exact litSections sb hsb]
  simp only [Option.some_bind]
  rw [mLit_exact base b hb]
  simp only [Option.some_bind]
  rw [mSuf_exact hsf htx hw3 t]
  simp

theorem sb_destruct {sb : Str} (hsb : ciEqL sb litSections) :
    ∃ s0 s1 sb', sb = s0 :: s1 :: sb' ∧ lcN s0 = 115 ∧ lcN s1 = 101 := by
  have h : lowerL sb = [115, 101, 99, 116, 105, 111, 110, 115, 47] := by
    rw [hsb]; decide
  obtain ⟨s0, r0, rfl, h0, h⟩ := lowerL_cons_inv h
  obtain ⟨s1, r1, rfl, h1, _⟩ := lowerL_cons_inv h
  exact ⟨s0, s1, r1, rfl, h0, h1⟩

theorem mAfterBrace_exact {base w2 dt sb b sf tx w3 : Str} (hw2 : allWsL w2)
    (hdt : dt = [] ∨ dt = ['.', '/'])
    (hsb : ciEqL sb litSections) (hb : ciEqL b base)
    (hsf : sf = [] ∨ ∃ cs, sf = '-' :: cs ∧ allClsL cs)
    (htx : ciEqL tx litDotTex) (hw3 : allWsL w3) (t : Str) :
    mAfterBrace base
        (w2 ++ (dt ++ (sb ++ (b ++ (sf ++ (tx ++ (w3 ++ '\x7d' :: t))))))) =
      some (w2 ++ (dt ++ (sb ++ (b ++ (sf ++ (tx ++ (w3 ++ ['\x7d'])))))), t) := by
  obtain ⟨s0, s1, sb', rfl, h0, h1⟩ := sb_destruct hsb
  unfold mAfterBrace
  rcases hdt with rfl | rfl
  · have hstop : isWsC s0 = false := isWsC_false_of_lcN h0 (Or.inr rfl)
    have hws := takeWhile_append_all w2 hw2 s0 hstop
      (s1 :: sb' ++ (b ++ (sf ++ (tx ++ (w3 ++ '\x7d' :: t)))))
    simp only [List.nil_append, List.cons_append, List.append_assoc] at hws ⊢
    rw [hws.1, hws.2]
    have hne : ¬ (s0 = '.' ∧ s1 = '/') := by
      intro hpair
      exact ne_of_lcN h0 (by decide) hpair.1
    simp only [if_neg hne]
    have hnd := mNoDot_exact hsb hb hsf htx hw3 t
    simp only [List.cons_append, List.append_assoc] at hnd
    rw [hnd]
    simp
  · have hws := takeWhile_append_all w2 hw2 '.' (by decide)
      ('/' :: (s0 :: s1 :: sb' ++ (b ++ (sf ++ (tx ++ (w3 ++ '\x7d' :: t))))))
    simp only [List.cons_append, List.append_assoc, List.nil_append] at hws ⊢
    rw [hws.1, hws.2]
    simp only [if_pos (And.intro rfl rfl)]
    have hnd := mNoDot_exact hsb hb hsf htx hw3 t
    simp only [List.cons_append, List.append_assoc] at hnd
    rw [hnd]
    simp

theorem matchD_exact {base d : Str} (hd : isDirective base d) (t : Str) :
    matchD base (d ++ t) = some (d, t) := by
  obtain ⟨i, w1, w2, dt, rest, hci, hw1, hw2, hdt, hsec, hdeq⟩ := hd
  obtain ⟨sb, b, rest', hsb, hb, hst, hreq⟩ := hsec
  obtain ⟨sf, d', hsf, htp, hr'eq⟩ := hst
  obtain ⟨tx, w3, htx, hw3t, hd'eq⟩ := htp
  subst hd'eq; subst hr'eq; subst hreq; subst hdeq
  unfold matchD
  have hin : (i ++ w1 ++ '\x7b' ::
        (w2 ++ dt ++ (sb ++ b ++ (sf ++ (tx ++ w3 ++ ['\x7d'])))) ++ t) =
      i ++ (w1 ++ '\x7b' ::
        (w2 ++ (dt ++ (sb ++ (b ++ (sf ++ (tx ++ (w3 ++ '\x7d' :: t)))))))) := by
    simp
  rw [hin, mLit_exact litInput i hci]
  simp only [Option.some_bind]
  have hws := takeWhile_append_all w1 hw1 '\x7b' (by decide)
    (w2 ++ (dt ++ (sb ++ (b ++ (sf ++ (tx ++ (w3 ++ '\x7d' :: t)))))))
  rw [hws.1, hws.2]
  simp only [if_pos rfl]
  rw [mAfterBrace_exact hw2 hdt hsb hb hsf htx hw3t t]
  simp

theorem not_mem_ciEq {s lit : Str} (h : ciEqL s lit) {c : Char}
    (hc : lcN c ∉ lowerL lit) : c ∉ s := fun hm => hc (h ▸ mem_lowerL hm)

theorem not_mem_allWs {w : Str} (h : allWsL w) {c : Char}
    (hc : isWsC c = false) : c ∉ w := fun hm => by
  rw [h c hm] at hc
  exact Bool.noConfusion hc

theorem not_mem_allCls {s : Str} (h : allClsL s) {c : Char}
    (hc : isCls c = false) : c ∉ s := fun hm => by
  rw [h c hm] at hc
  exact Bool.noConfusion hc

theorem not_mem_sf {sf : Str} (hsf : sf = [] ∨ ∃ cs, sf = '-' :: cs ∧ allClsL cs)
    {c : Char} (hc : isCls c = false) : c ∉ sf := by
  rcases hsf with rfl | ⟨cs, rfl, hcs⟩
  · simp
  · intro hm
    rcases List.mem_cons.mp hm with rfl | hm'
    · rw [show isCls '-' = true by decide] at hc
      exact Bool.noConfusion hc
    · exact not_mem_allCls hcs hc hm'

theorem not_mem_dt {dt : Str} (hdt : dt = [] ∨ dt = ['.', '/'])
    {c : Char} (hc : c ≠ '.' ∧ c ≠ '/') : c ∉ dt := by
  rcases hdt with rfl | rfl
  · simp
  · simp [hc.1, hc.2]

theorem dir_head_bslash {base d : Str} (hd : isDirective base d)
    (hbase : (92 : Nat) ∉ lowerL base) : ∃ tl, d = '\\' :: tl ∧ '\\' ∉ tl := by
  obtain ⟨i, w1, w2, dt, rest, hci, hw1, hw2, hdt, hsec, hdeq⟩ := hd
  obtain ⟨sb, b, rest', hsb, hb, hst, hreq⟩ := hsec
  obtain ⟨sf, d', hsf, htp, hr'eq⟩ := hst
  obtain ⟨tx, w3, htx, hw3, hd'eq⟩ := htp
  subst hd'eq; subst hr'eq; subst hreq; subst hdeq
  have h : lowerL i = [92, 105, 110, 112, 117, 116] := by
    rw [hci]; decide
  obtain ⟨ihd, itl, rfl, hihd, hitl⟩ := lowerL_cons_inv h
  have hhd : ihd = '\\' := by
    have := lcN_fix hihd (by omega)
    exact char_eq_lit this '\\' (by decide)
  subst hhd
  refine ⟨itl ++ w1 ++ '\x7b' :: (w2 ++ dt ++ (sb ++ b ++ (sf ++ (tx ++ w3 ++
    ['\x7d'])))), by simp, ?_⟩
  intro hm
  simp only [List.cons_append, List.append_assoc, List.mem_append,
    List.mem_cons, List.mem_singleton] at hm
  have hitl' : '\\' ∉ itl := by
    intro hmm
    have : lcN '\\' ∈ [105, 110, 112, 117, 116] := hitl ▸ mem_lowerL hmm
    simp [lcN] at this
  rcases hm with h | h | h | h | h | h | h | h | h | h | h
  · exact hitl' h
  · exact not_mem_allWs hw1 (by decide) h
  · exact absurd h (by decide)
  · exact not_mem_allWs hw2 (by decide) h
  · exact not_mem_dt hdt (by constructor <;> decide) h
  · exact not_mem_ciEq hsb (by decide) h
  · refine not_mem_ciEq hb ?_ h
    rw [show lcN '\\' = (92 : Nat) from by decide]
    exact hbase
  · exact not_mem_sf hsf (by decide) h
  · exact not_mem_ciEq htx (by decide) h
  · exact not_mem_allWs hw3 (by decide) h
  · exact absurd h (by decide)

theorem dir_last_rbrace {base d : Str} (hd : isDirective base d)
    (hbase : (125 : Nat) ∉ lowerL base) :
    ∃ ini, d = ini ++ ['\x7d'] ∧ '\x7d' ∉ ini := by
  obtain ⟨i, w1, w2, dt, rest, hci, hw1, hw2, hdt, hsec, hdeq⟩ := hd
  obtain ⟨sb, b, rest', hsb, hb, hst, hreq⟩ := hsec
  obtain ⟨sf, d', hsf, htp, hr'eq⟩ := hst
  obtain ⟨tx, w3, htx, hw3, hd'eq⟩ := htp
  subst hd'eq; subst hr'eq; subst hreq; subst hdeq
  refine ⟨i ++ w1 ++ '\x7b' :: (w2 ++ dt ++ (sb ++ b ++ (sf ++ (tx ++ w3)))),
    by simp, ?_⟩
  intro hm
  simp only [List.cons_append, List.append_assoc, List.mem_append,
    List.mem_cons, List.mem_singleton] at hm
  rcases hm with h | h | h | h | h | h | h | h | h | h
  · exact not_mem_ciEq hci (by decide) h
  · exact not_mem_allWs hw1 (by decide) h
  · exact absurd h (by decide)
  · exact not_mem_allWs hw2 (by decide) h
  · exact not_mem_dt hdt (by constructor <;> decide) h
  · exact not_mem_ciEq hsb (by decide) h
  · refine not_mem_ciEq hb ?_ h
    rw [show lcN '\x7d' = (125 : Nat) from by decide]
    exact hbase
  · exact not_mem_sf hsf (by decide) h
  · exact not_mem_ciEq htx (by decide) h
  · exact not_mem_allWs hw3 (by decide) h

theorem mem_align {α : Type} (c : α) :
    ∀ (a1 a2 r1 r2 : List α), c ∉ a1 → c ∉ a2 →
    a1 ++ c :: r1 = a2 ++ c :: r2 → a1 = a2 ∧ r1 = r2 := by
  intro a1
  induction a1 with
  | nil =>
    intro a2 r1 r2 _ h2 heq
    cases a2 with
    | nil =>
      simp at heq
      exact ⟨rfl, heq⟩
    | cons y ys =>
      simp at heq
      obtain ⟨rfl, _⟩ := heq
      exact absurd (List.mem_cons_self _ _) h2
  | cons x xs ih =>
    intro a2 r1 r2 h1 h2 heq
    cases a2 with
    | nil =>
      simp at heq
      obtain ⟨rfl, _⟩ := heq
      exact absurd (List.mem_cons_self _ _) h1
    | cons y ys =>
      simp only [List.cons_append, List.cons.injEq] at heq
      obtain ⟨rfl, heq'⟩ := heq
      have h1' : c ∉ xs := fun hm => h1 (List.mem_cons_of_mem x hm)
      have h2' : c ∉ ys := fun hm => h2 (List.mem_cons_of_mem x hm)
      obtain ⟨ha, hr⟩ := ih ys r1 r2 h1' h2' heq'
      exact ⟨by rw [ha], hr⟩

theorem allP_prefix_align {P : Char → Bool} :
    ∀ (a1 a2 : Str) (b1 b2 : Str), (∀ c ∈ a1, P c = true) → (∀ c ∈ a2, P c = true) →
    (∀ c rest, b1 = c :: rest → P c = false) →
    (∀ c rest, b2 = c :: rest → P c = false) →
    a1 ++ b1 = a2 ++ b2 → a1 = a2 ∧ b1 = b2 := by
  intro a1
  induction a1 with
  | nil =>
    intro a2 b1 b2 _ ha2 hb1 _ heq
    cases a2 with
    | nil => exact ⟨rfl, by simpa using heq⟩
    | cons y ys =>
      exfalso
      simp only [List.nil_append, List.cons_append] at heq
      have hy : P y = true := ha2 y (List.mem_cons_self y ys)
      have : P y = false := hb1 y (ys ++ b2) heq
      rw [hy] at this
      exact Bool.noConfusion this
  | cons x xs ih =>
    intro a2 b1 b2 ha1 ha2 hb1 hb2 heq
    cases a2 with
    | nil =>
      exfalso
      simp only [List.nil_append, List.cons_append] at heq
      have hx : P x = true := ha1 x (List.mem_cons_self x xs)
      have : P x = false := hb2 x (xs ++ b1) heq.symm
      rw [hx] at this
      exact Bool.noConfusion this
    | cons y ys =>
      simp only [List.cons_append, List.cons.injEq] at heq
      obtain ⟨rfl, heq'⟩ := heq
      have ha1' : ∀ c ∈ xs, P c = true := fun c hc => ha1 c (List.mem_cons_of_mem x hc)
      have ha2' : ∀ c ∈ ys, P c = true := fun c hc => ha2 c (List.mem_cons_of_mem x hc)
      obtain ⟨ha, hb⟩ := ih ys b1 b2 ha1' ha2' hb1 hb2 heq'
      exact ⟨by rw [ha], hb⟩

theorem appendComparable {α : Type} :
    ∀ (a b x y : List α), a ++ x = b ++ y →
    (∃ u, a ++ u = b) ∨ (∃ u, b ++ u = a) := by
  intro a
  induction a with
  | nil => intro b x y _; exact Or.inl ⟨b, rfl⟩
  | cons c a' ih =>
    intro b x y heq
    cases b with
    | nil => exact Or.inr ⟨c :: a', rfl⟩
    | cons y0 b' =>
      simp only [List.cons_append, List.cons.injEq] at heq
      obtain ⟨rfl, heq'⟩ := heq
      rcases ih b' x y heq' with ⟨u, hu⟩ | ⟨u, hu⟩
      · exact Or.inl ⟨u, by rw [← hu]; rfl⟩
      · exact Or.inr ⟨u, by rw [← hu]; rfl⟩

theorem ciEqL_length {a b : Str} (h : ciEqL a b) : a.length = b.length := by
  have := congrArg List.length h
  simpa [lowerL] using this

theorem dir_prefix_unique {base1 base2 d1 d2 r1 r2 : Str}
    (h1 : isDirective base1 d1) (h2 : isDirective base2 d2)
    (hb1 : (125 : Nat) ∉ lowerL base1) (hb2 : (125 : Nat) ∉ lowerL base2)
    (heq : d1 ++ r1 = d2 ++ r2) : d1 = d2 ∧ r1 = r2 := by
  obtain ⟨ini1, hd1, hm1⟩ := dir_last_rbrace h1 hb1
  obtain ⟨ini2, hd2, hm2⟩ := dir_last_rbrace h2 hb2
  rw [hd1, hd2] at heq
  simp only [List.append_assoc, List.singleton_append] at heq
  obtain ⟨hi, hr⟩ := mem_align '\x7d' ini1 ini2 r1 r2 hm1 hm2 heq
  subst hi; subst hr
  exact ⟨by rw [hd1, hd2], rfl⟩

theorem secHead_not_ws {dt sb bb rr : Str} (hdt : dt = [] ∨ dt = ['.', '/'])
    (hsb : ciEqL sb litSections) :
    ∀ c rest, dt ++ (sb ++ (bb ++ rr)) = c :: rest → isWsC c = false := by
  intro c rest heq
  rcases hdt with rfl | rfl
  · obtain ⟨s0, s1, sb', rfl, h0, _⟩ := sb_destruct hsb
    simp only [List.nil_append, List.cons_append, List.cons.injEq] at heq
    rw [← heq.1]
    exact isWsC_false_of_lcN h0 (Or.inr rfl)
  · simp only [List.cons_append, List.cons.injEq] at heq
    rw [← heq.1]
    decide

theorem dir_base_compat {base1 base2 d : Str}
    (h1 : isDirective base1 d) (h2 : isDirective base2 d) :
    (∃ u, lowerL base1 ++ u = lowerL base2) ∨
      (∃ u, lowerL base2 ++ u = lowerL base1) := by
  obtain ⟨i, w1, w2, dt, rest, hci, hw1, hw2, hdt, hsec, hdeq⟩ := h1
  obtain ⟨sb, b, rest', hsb, hb, hst, hreq⟩ := hsec
  obtain ⟨i', w1', w2', dt', rest2, hci', hw1', hw2', hdt', hsec', hdeq'⟩ := h2
  obtain ⟨sb', b', rest2', hsb', hb', hst', hreq'⟩ := hsec'
  subst hreq; subst hreq'
  rw [hdeq] at hdeq'
  simp only [List.append_assoc] at hdeq'
  have hleni : i.length = i'.length := by
    rw [ciEqL_length hci, ciEqL_length hci']
  obtain ⟨hi, hrest⟩ := List.append_inj hdeq' hleni
  have hbr1 : '\x7b' ∉ w1 := not_mem_allWs hw1 (by decide)
  have hbr2 : '\x7b' ∉ w1' := not_mem_allWs hw1' (by decide)
  obtain ⟨hw1eq, hR⟩ := mem_align '\x7b' w1 w1'
    (w2 ++ (dt ++ (sb ++ (b ++ rest'))))
    (w2' ++ (dt' ++ (sb' ++ (b' ++ rest2')))) hbr1 hbr2 (by
      simpa [List.append_assoc] using hrest)
  have hws2 : ∀ c ∈ w2, isWsC c = true := hw2
  have hws2' : ∀ c ∈ w2', isWsC c = true := hw2'
  obtain ⟨hw2eq, hX⟩ := allP_prefix_align w2 w2'
    (dt ++ (sb ++ (b ++ rest'))) (dt' ++ (sb' ++ (b' ++ rest2')))
    hws2 hws2' (secHead_not_ws hdt hsb) (secHead_not_ws hdt' hsb') hR
  have hY : sb ++ (b ++ rest') = sb' ++ (b' ++ rest2') := by
    rcases hdt with rfl | rfl <;> rcases hdt' with rfl | rfl
    · simpa using hX
    · exfalso
      obtain ⟨s0, s1, sb0, rfl, h0, _⟩ := sb_destruct hsb
      simp only [List.nil_append, List.cons_append, List.cons.injEq] at hX
      exact ne_of_lcN h0 (by decide) hX.1
    · exfalso
      obtain ⟨s0, s1, sb0, rfl, h0, _⟩ := sb_destruct hsb'
      simp only [List.nil_append, List.cons_append, List.cons.injEq] at hX
      exact ne_of_lcN h0 (by decide) hX.1.symm
    · simp only [List.cons_append, List.cons.injEq] at hX
      exact hX.2.2
  have hlensb : sb.length = sb'.length := by
    rw [ciEqL_length hsb, ciEqL_length hsb']
  obtain ⟨hsbeq, hZ⟩ := List.append_inj hY hlensb
  rcases appendComparable b b' rest' rest2' hZ with ⟨u, hu⟩ | ⟨u, hu⟩
  · left
    refine ⟨lowerL u, ?_⟩
    have := congrArg lowerL hu
    simp only [lowerL, List.map_append] at this
    rw [← lowerL, ← lowerL, ← lowerL] at this
    rw [← hb, ← hb']
    exact this
  · right
    refine ⟨lowerL u, ?_⟩
    have := congrArg lowerL hu
    simp only [lowerL, List.map_append] at this
    rw [← lowerL, ← lowerL, ← lowerL] at this
    rw [← hb, ← hb']
    exact this

theorem matchD_none_of_other {base1 base2 d : Str} (hd : isDirective base2 d)
    (hb1 : (125 : Nat) ∉ lowerL base1) (hb2 : (125 : Nat) ∉ lowerL base2)
    (hinc1 : ¬ ∃ u, lowerL base1 ++ u = lowerL base2)
    (hinc2 : ¬ ∃ u, lowerL base2 ++ u = lowerL base1) :
    ∀ t, matchD base1 (d ++ t) = none := by
  intro t
  cases hm : matchD base1 (d ++ t) with
  | none => rfl
  | some pr =>
    exfalso
    obtain ⟨heq, hdir⟩ := matchD_sound (show matchD base1 (d ++ t) = some (pr.1, pr.2)
      from by rw [hm])
    obtain ⟨hd1, _⟩ := dir_prefix_unique hdir hd hb1 hb2 heq.symm
    rw [hd1] at hdir
    rcases dir_base_compat hdir hd with hc | hc
    · exact hinc1 hc
    · exact hinc2 hc

/-- No substring of `A` is an inclusion directive for `base`. -/
def noDirSub (base A : Str) : Prop :=
  ∀ i j : Nat, ¬ isDirective base ((A.drop i).take j)

theorem noDirSub_tail {base : Str} {a : Char} {A : Str}
    (h : noDirSub base (a :: A)) : noDirSub base A := by
  intro i j
  have := h (i + 1) j
  simpa using this

theorem subnL_nil {base repl : Str} : subnL base repl [] = ([], 0) := rfl

theorem subnL_cons_none {base repl : Str} {x : Char} {xs : Str}
    (h : matchD base (x :: xs) = none) :
    subnL base repl (x :: xs) =
      (x :: (subnL base repl xs).1, (subnL base repl xs).2) := by
  show (match matchD base (x :: xs) with
    | some pr =>
      let p := subnGo base repl xs.length pr.2
      (repl ++ p.1, p.2 + 1)
    | none =>
      let p := subnGo base repl xs.length xs
      (x :: p.1, p.2)) = _
  rw [h]
  rfl

theorem subnL_cons_some {base repl : Str} {x : Char} {xs : Str} {pr : Str × Str}
    (h : matchD base (x :: xs) = some pr) :
    subnL base repl (x :: xs) =
      (repl ++ (subnL base repl pr.2).1, (subnL base repl pr.2).2 + 1) := by
  show (match matchD base (x :: xs) with
    | some pr =>
      let p := subnGo base repl xs.length pr.2
      (repl ++ p.1, p.2 + 1)
    | none =>
      let p := subnGo base repl xs.length xs
      (x :: p.1, p.2)) = _
  rw [h]
  have hf : subnGo base repl xs.length pr.2 = subnGo base repl pr.2.length pr.2 := by
    apply subnGo_fuel
    obtain ⟨ht, hne⟩ := matchD_split h
    have hlen := congrArg List.length ht
    rw [List.length_append] at hlen
    have hpos := List.length_pos.mpr hne
    simp only [List.length_cons] at hlen
    omega
  show (repl ++ (subnGo base repl xs.length pr.2).1,
    (subnGo base repl xs.length pr.2).2 + 1) = _
  rw [hf]
  rfl

theorem matchD_none_in_raw {base : Str} (hbb : (92 : Nat) ∉ lowerL base)
    {a : Char} {A c : Str} (hA : noDirSub base (a :: A))
    (hc : c = [] ∨ ∃ cs, c = '\\' :: cs) :
    matchD base ((a :: A) ++ c) = none := by
  cases hm : matchD base ((a :: A) ++ c) with
  | none => rfl
  | some pr =>
    exfalso
    obtain ⟨heq, hdir⟩ := matchD_sound (show matchD base ((a :: A) ++ c) =
      some (pr.1, pr.2) from by rw [hm])
    by_cases hlen : pr.1.length ≤ (a :: A).length
    · have htake : pr.1 = ((a :: A).drop 0).take pr.1.length := by
        have h1 : (pr.1 ++ pr.2).take pr.1.length = pr.1 := List.take_left _ _
        rw [← heq] at h1
        rw [List.take_append_eq_append_take] at h1
        rw [Nat.sub_eq_zero_of_le hlen] at h1
        simp at h1
        simp [h1]
      exact hA 0 pr.1.length (htake ▸ hdir)
    · push_neg at hlen
      rcases hc with rfl | ⟨cs, rfl⟩
      · have hl := congrArg List.length heq
        rw [List.length_append, List.length_append] at hl
        simp only [List.length_nil] at hl
        omega
      · obtain ⟨tl, htl, hmem⟩ := dir_head_bslash hdir hbb
        have hpr1 : pr.1 = (a :: A) ++ ('\\' :: cs).take (pr.1.length - (a :: A).length) := by
          have h1 : (pr.1 ++ pr.2).take pr.1.length = pr.1 := List.take_left _ _
          rw [← heq] at h1
          rw [List.take_append_eq_append_take] at h1
          rw [List.take_of_length_le (by omega)] at h1
          exact h1.symm
        have hk : 1 ≤ pr.1.length - (a :: A).length := by
          simp only [List.length_cons] at hlen ⊢
          omega
        have htk : ('\\' :: cs).take (pr.1.length - (a :: A).length) =
            '\\' :: cs.take (pr.1.length - (a :: A).length - 1) := by
          cases hn : pr.1.length - (a :: A).length with
          | zero => omega
          | succ m => simp [List.take_succ_cons]
        rw [htk] at hpr1
        rw [htl] at hpr1
        simp only [List.cons_append, List.cons.injEq] at hpr1
        apply hmem
        rw [hpr1.2]
        exact List.mem_append_right _ (List.mem_cons_self _ _)

theorem subnL_skip {base : Str} (repl : Str) (hbb : (92 : Nat) ∉ lowerL base) :
    ∀ (A c : Str), noDirSub base A → (c = [] ∨ ∃ cs, c = '\\' :: cs) →
    subnL base repl (A ++ c) =
      ((A ++ (subnL base repl c).1 : Str), (subnL base repl c).2) := by
  intro A
  induction A with
  | nil => intro c _ _; simp
  | cons a A' ih =>
    intro c hA hc
    have hnone : matchD base ((a :: A') ++ c) = none := matchD_none_in_raw hbb hA hc
    rw [show (a :: A') ++ c = a :: (A' ++ c) from rfl] at hnone ⊢
    rw [subnL_cons_none hnone]
    rw [ih c (noDirSub_tail hA) hc]
    rfl

theorem subnL_dir {base repl D : Str} (hd : isDirective base D)
    (hbb : (92 : Nat) ∉ lowerL base) (t : Str) :
    subnL base repl (D ++ t) =
      ((repl ++ (subnL base repl t).1 : Str), (subnL base repl t).2 + 1) := by
  obtain ⟨tl, htl, _⟩ := dir_head_bslash hd hbb
  have hm : matchD base (D ++ t) = some (D, t) := matchD_exact hd t
  rw [htl] at hm ⊢
  rw [show ('\\' :: tl) ++ t = '\\' :: (tl ++ t) from rfl] at hm ⊢
  rw [subnL_cons_some hm]

/-- A master document presented as a leading raw segment followed by
alternating directive and raw segments. -/
def renderDoc (a0 : Str) : List (Str × Str) → Str
  | [] => a0
  | (dseg, aseg) :: rest => a0 ++ dseg ++ renderDoc aseg rest

theorem scan_doc {base : Str} (repl : Str) (hbb : (92 : Nat) ∉ lowerL base) :
    ∀ (segs : List (Str × Str)) (a0 : Str), noDirSub base a0 →
    (∀ p ∈ segs, isDirective base p.1 ∧ noDirSub base p.2) →
    subnL base repl (renderDoc a0 segs) =
      (renderDoc a0 (segs.map fun p => (repl, p.2)), segs.length) := by
  intro segs
  induction segs with
  | nil =>
    intro a0 h0 _
    have := subnL_skip repl hbb a0 [] h0 (Or.inl rfl)
    simpa [renderDoc, subnL_nil] using this
  | cons p rest ih =>
    intro a0 h0 hsegs
    obtain ⟨hdir, hnd⟩ := hsegs p (List.mem_cons_self p rest)
    obtain ⟨tl, htl, _⟩ := dir_head_bslash hdir hbb
    have hbar : (p.1 ++ renderDoc p.2 rest = ([] : Str)) ∨
        ∃ cs, p.1 ++ renderDoc p.2 rest = '\\' :: cs := by
      right
      exact ⟨tl ++ renderDoc p.2 rest, by rw [htl]; rfl⟩
    have hr : renderDoc a0 (p :: rest) = a0 ++ (p.1 ++ renderDoc p.2 rest) := by
      cases p with
      | mk dseg aseg => simp [renderDoc]
    rw [hr]
    rw [subnL_skip repl hbb a0 (p.1 ++ renderDoc p.2 rest) h0 hbar]
    rw [subnL_dir hdir hbb (renderDoc p.2 rest)]
    rw [ih p.2 hnd (fun q hq => hsegs q (List.mem_cons_of_mem p hq))]
    cases p with
    | mk dseg aseg =>
      simp [renderDoc]

/-- The remote Overleaf project modelled as an association list from file
paths to file contents (`client.read` / `client.write` / `client.exists`). -/
abbrev Store := List (Str × Str)

/-- `client.read`: the content at a path, if the file exists. -/
def readS (s : Store) (p : Str) : Option Str :=
  (s.find? (fun e => e.1 == p)).map (fun e => e.2)

/-- `client.write`: create or overwrite the file at a path. -/
def writeS : Store → Str → Str → Store
  | [], p, c => [(p, c)]
  | e :: es, p, c => if e.1 == p then (p, c) :: es else e :: writeS es p c

/-- `client.exists`. -/
def existsS (s : Store) (p : Str) : Bool := (readS s p).isSome

/-- `Config.CV_SECTIONS_PATHS`: the section registry. -/
def CV_SECTIONS_PATHS : List (Str × Str) :=
  [("heading".toList, "sections/heading.tex".toList),
   ("education".toList, "sections/education.tex".toList),
   ("experience".toList, "sections/experience.tex".toList),
   ("additional_experience".toList, "sections/additional_experience.tex".toList),
   ("skills".toList, "sections/skills.tex".toList)]

/-- `Config.CV_MAIN_TEX_PATH`. -/
def CV_MAIN_TEX_PATH : Str := "main.tex".toList

/-- The registered logical-section names (the keys of the registry). -/
def registeredNames : List Str := CV_SECTIONS_PATHS.map (fun e => e.1)

/-- Text before the first occurrence of `sep` (Python `s.split(sep)[0]`). -/
def beforeSub (sep : Str) : Str → Str
  | [] => []
  | c :: cs => if sep.isPrefixOf (c :: cs) then [] else c :: beforeSub sep cs

/-- `filename.split(".tex")[0].split("-")[0]`: the derived logical name. -/
def deriveBase (filename : Str) : Str :=
  beforeSub ['-'] (beforeSub litDotTex filename)

/-- The replacement text emitted for a filename: the expansion of the `re`
template `\\input{sections/<filename>}`. The template engine processes
backslash escapes (`\\` becomes `\`, group references expand, unknown
escapes raise `re.error`), so the template's only escape is its leading
`\\` and the expansion is this literal text exactly when the filename
itself contains no backslash; theorems using `replFor` carry that
restriction (as `'\\' ∉ F` or via `isDirective S (replFor F)`, whose
grammar admits no backslash after the head). -/
def replFor (filename : Str) : Str :=
  "\\input\x7bsections/".toList ++ filename ++ "\x7d".toList

/-- The `RepointError` message raised when a section pattern has no match. -/
def repointErrMsg (base : Str) : Str :=
  "Update failed: Could not find any existing '\\input\x7b.../".toList ++ base ++
    "...\x7d' line in 'main.tex' to replace.".toList

/-- The outer exception wrapper of `update_main_tex_with_new_sections`. -/
def wrapUpdateErr (e : Str) : Str :=
  "Failed to update 'main.tex': ".toList ++ e

/-- The error produced when the master document itself cannot be read. -/
def readMainErr : Str := "Failed to update 'main.tex': read error".toList

/-- One iteration of the replacement loop of
`update_main_tex_with_new_sections`: derive the logical name, skip it if it
is not registered, otherwise replace every match of the inclusion-directive
pattern, failing when there is none. -/
def processOne (content : Str) (filename : Str) : Except Str Str :=
  let base := deriveBase filename
  if base ∈ registeredNames then
    let p := subnL base (replFor filename) content
    if p.2 = 0 then Except.error (repointErrMsg base) else Except.ok p.1
  else Except.ok content

/-- The replacement loop over the whole filename list, in order. -/
def processAll : Str → List Str → Except Str Str
  | content, [] => Except.ok content
  | content, f :: fs =>
    match processOne content f with
    | Except.ok c => processAll c fs
    | Except.error e => Except.error e

/-- `update_main_tex_with_new_sections`: read the master document, run the
replacement loop, and write back only when the text changed.  Returns the
store after the call together with either an error message or the changed
flag (`status = success ↦ true`, `status = no_changes ↦ false`). -/
def update_main_tex_with_new_sections (store : Store) (filenames : List Str) :
    Store × Except Str Bool :=
  match readS store CV_MAIN_TEX_PATH with
  | none => (store, Except.error readMainErr)
  | some original =>
    match processAll original filenames with
    | Except.error e => (store, Except.error (wrapUpdateErr e))
    | Except.ok modified =>
      if modified = original then (store, Except.ok false)
      else (writeS store CV_MAIN_TEX_PATH modified, Except.ok true)

/-- The `ToolError` message of `get_full_resume` for an unreadable section. -/
def readSectionErr (sec : Str) : Str :=
  "Could not read ".toList ++ sec ++ ": read error".toList

/-- The reading loop of `get_full_resume` over the registry entries. -/
def readSections (store : Store) : List (Str × Str) → Except Str (List (Str × Str))
  | [] => Except.ok []
  | (sec, path) :: rest =>
    match readS store path with
    | some content =>
      match readSections store rest with
      | Except.ok m => Except.ok ((sec, content) :: m)
      | Except.error e => Except.error e
    | none => Except.error (readSectionErr sec)

/-- `get_full_resume`: read every registered section file, failing as a whole
on any unreadable section. -/
def get_full_resume (store : Store) : Except Str (List (Str × Str)) :=
  readSections store CV_SECTIONS_PATHS

/-- `os.path.dirname` for the slash-separated paths this server uses. -/
def dirname (p : Str) : Str :=
  ((p.reverse.dropWhile (fun c => c != '/')).drop 1).reverse

/-- `os.path.join` for the paths this server builds: a second component that
is absolute replaces the first. -/
def pathJoin (d f : Str) : Str :=
  if f.head? = some '/' then f
  else if d = [] then f
  else if d.getLast? = some '/' then d ++ f
  else d ++ '/' :: f

/-- The n-th file name probed by `create_tailored_section`: the plain
`<section>-<slug>.tex` first, then `<section>-<slug>_1.tex`, `_2`, ... -/
def candidateName (baseName : Str) : Nat → Str
  | 0 => baseName ++ litDotTex
  | k + 1 => baseName ++ '_' :: ((Nat.repr (k + 1)).toList ++ litDotTex)

/-- The n-th full path probed by `create_tailored_section`. -/
def candidatePath (dir baseName : Str) (k : Nat) : Str :=
  pathJoin dir (candidateName baseName k)

/-- The probe loop (`while client.exists(full_path): ...`) with explicit
fuel; `assignPath` supplies fuel that is always sufficient. -/
def probeFrom (store : Store) (dir baseName : Str) : Nat → Nat → Option Str
  | 0, _ => none
  | fuel + 1, k =>
    let p := candidatePath dir baseName k
    if existsS store p then probeFrom store dir baseName fuel (k + 1) else some p

/-- The path assigned by the probe loop of `create_tailored_section`. -/
def assignPath (store : Store) (dir baseName : Str) : Option Str :=
  probeFrom store dir baseName (store.length + 1) 0

/-- Dictionary lookup `Config.CV_SECTIONS_PATHS[cv_section]`. -/
def lookupPath (sec : Str) : Option Str :=
  (CV_SECTIONS_PATHS.find? (fun e => e.1 == sec)).map (fun e => e.2)

/-- `create_tailored_section`: probe for an unused filename under the
section's fragments directory and write the new content there; returns the
updated store and the assigned path.  The `client.mkdir` call is a no-op in
the file-map model. -/
def create_tailored_section (store : Store) (cv_section slug content : Str) :
    Option (Store × Str) :=
  match lookupPath cv_section with
  | none => none
  | some canonical =>
    let dir := dirname canonical
    let baseName := cv_section ++ '-' :: slug
    match assignPath store dir baseName with
    | none => none
    | some p => some (writeS store p content, p)

/-- The decimal-digit list of a natural number; the unfolded form of the
fuelled `Nat.toDigitsCore` used by `Nat.repr`. -/
def decDigits (n : Nat) : List Char :=
  if n < 10 then [Nat.digitChar n]
  else decDigits (n / 10) ++ [Nat.digitChar (n % 10)]
termination_by n
decreasing_by
  exact Nat.div_lt_self (by omega) (by decide)

theorem decDigits_ne_nil (n : Nat) : decDigits n ≠ [] := by
  unfold decDigits
  split
  · simp
  · simp

theorem toDigitsCore_eq :
    ∀ (fuel n : Nat) (ds : List Char), n < fuel →
    Nat.toDigitsCore 10 fuel n ds = decDigits n ++ ds := by
  intro fuel
  induction fuel with
  | zero => intro n ds h; omega
  | succ f ih =>
    intro n ds h
    unfold Nat.toDigitsCore
    by_cases hz : n / 10 = 0
    · rw [if_pos hz]
      have hn10 : n < 10 := by
        rcases Nat.lt_or_ge n 10 with h' | h'
        · exact h'
        · exfalso
          have := Nat.div_le_div_right (c := 10) h'
          simp at this
          omega
      have : decDigits n = [Nat.digitChar n] := by
        unfold decDigits
        rw [if_pos hn10]
      rw [this, Nat.mod_eq_of_lt hn10]
      rfl
    · rw [if_neg hz]
      have hge : 10 ≤ n := by
        by_contra hlt
        push_neg at hlt
        exact hz (Nat.div_eq_of_lt hlt)
      have hdiv : n / 10 < n := Nat.div_lt_self (by omega) (by decide)
      have hlt : n / 10 < f := by omega
      rw [ih (n / 10) (Nat.digitChar (n % 10) :: ds) hlt]
      have : decDigits n = decDigits (n / 10) ++ [Nat.digitChar (n % 10)] := by
        conv_lhs => unfold decDigits
        rw [if_neg (by omega)]
      rw [this]
      simp

theorem repr_toList_eq (n : Nat) : (Nat.repr n).toList = decDigits n := by
  show (Nat.toDigits 10 n).asString.toList = decDigits n
  unfold Nat.toDigits
  rw [toDigitsCore_eq (n + 1) n [] (Nat.lt_succ_self n)]
  simp [List.asString, String.toList]

theorem digitChar_inj {a b : Nat} (ha : a < 10) (hb : b < 10)
    (h : Nat.digitChar a = Nat.digitChar b) : a = b := by
  have key : ∀ x : Fin 10, ∀ y : Fin 10,
      Nat.digitChar x.val = Nat.digitChar y.val → x = y := by decide
  have := key ⟨a, ha⟩ ⟨b, hb⟩ h
  exact congrArg Fin.val this

theorem decDigits_inj : ∀ m, ∀ n, decDigits m = decDigits n → m = n := by
  intro m
  induction m using Nat.strong_induction_on with
  | _ m ih =>
    intro n h
    by_cases hm : m < 10 <;> by_cases hn : n < 10
    · rw [show decDigits m = [Nat.digitChar m] from by unfold decDigits; rw [if_pos hm],
        show decDigits n = [Nat.digitChar n] from by unfold decDigits; rw [if_pos hn]] at h
      simp at h
      exact digitChar_inj hm hn h
    · exfalso
      rw [show decDigits m = [Nat.digitChar m] from by unfold decDigits; rw [if_pos hm],
        show decDigits n = decDigits (n / 10) ++ [Nat.digitChar (n % 10)] from by
          conv_lhs => unfold decDigits
          rw [if_neg hn]] at h
      have hl := congrArg List.length h
      simp only [List.length_singleton, List.length_append] at hl
      have hpos := List.length_pos.mpr (decDigits_ne_nil (n / 10))
      omega
    · exfalso
      rw [show decDigits n = [Nat.digitChar n] from by unfold decDigits; rw [if_pos hn],
        show decDigits m = decDigits (m / 10) ++ [Nat.digitChar (m % 10)] from by
          conv_lhs => unfold decDigits
          rw [if_neg hm]] at h
      have hl := congrArg List.length h
      simp only [List.length_singleton, List.length_append] at hl
      have hpos := List.length_pos.mpr (decDigits_ne_nil (m / 10))
      omega
    · rw [show decDigits m = decDigits (m / 10) ++ [Nat.digitChar (m % 10)] from by
          conv_lhs => unfold decDigits
          rw [if_neg hm],
        show decDigits n = decDigits (n / 10) ++ [Nat.digitChar (n % 10)] from by
          conv_lhs => unfold decDigits
          rw [if_neg hn]] at h
      obtain ⟨h1, h2⟩ := List.append_inj' h (by simp)
      have hdm : m / 10 < m := Nat.div_lt_self (by omega) (by decide)
      have hdiv := ih (m / 10) hdm (n / 10) h1
      simp at h2
      have hmod := digitChar_inj (Nat.mod_lt _ (by decide)) (Nat.mod_lt _ (by decide)) h2
      omega

theorem repr_inj {m n : Nat} (h : Nat.repr m = Nat.repr n) : m = n := by
  apply decDigits_inj
  rw [← repr_toList_eq, ← repr_toList_eq, h]

theorem nodup_subset_length {α : Type} [DecidableEq α] :
    ∀ (l l' : List α), l.Nodup → (∀ x ∈ l, x ∈ l') → l.length ≤ l'.length := by
  intro l
  induction l with
  | nil => intro l' _ _; simp
  | cons x xs ih =>
    intro l' hnd hsub
    have hx : x ∈ l' := hsub x (List.mem_cons_self x xs)
    have hnd' : xs.Nodup := (List.nodup_cons.mp hnd).2
    have hxnot : x ∉ xs := (List.nodup_cons.mp hnd).1
    have hsub' : ∀ y ∈ xs, y ∈ l'.erase x := by
      intro y hy
      have hyl : y ∈ l' := hsub y (List.mem_cons_of_mem x hy)
      have hne : y ≠ x := fun he => hxnot (he ▸ hy)
      exact (List.mem_erase_of_ne hne).mpr hyl
    have := ih (l'.erase x) hnd' hsub'
    have hlen : (l'.erase x).length = l'.length - 1 := List.length_erase_of_mem hx
    have hpos : 0 < l'.length := List.length_pos.mpr (List.ne_nil_of_mem hx)
    simp only [List.length_cons]
    omega

theorem candidateName_inj {baseName : Str} {k j : Nat}
    (h : candidateName baseName k = candidateName baseName j) : k = j := by
  cases k with
  | zero =>
    cases j with
    | zero => rfl
    | succ j' =>
      exfalso
      unfold candidateName at h
      have h' := List.append_cancel_left h
      have := congrArg (fun l : Str => l.head?) h'
      simp [litDotTex] at this
  | succ k' =>
    cases j with
    | zero =>
      exfalso
      unfold candidateName at h
      have h' := List.append_cancel_left h
      have := congrArg (fun l : Str => l.head?) h'
      simp [litDotTex] at this
    | succ j' =>
      unfold candidateName at h
      have h' := List.append_cancel_left h
      simp only [List.cons.injEq, true_and] at h'
      have h'' := List.append_inj' h' rfl
      have := repr_inj (by
        have := h''.1
        have hi := congrArg List.asString this
        simpa [Nat.repr] using hi)
      omega

theorem candidatePath_inj {dir baseName : Str} {c : Char} {bs : Str}
    (hbn : baseName = c :: bs) (hc : c ≠ '/') {k j : Nat}
    (h : candidatePath dir baseName k = candidatePath dir baseName j) : k = j := by
  subst hbn
  have hhead : ∀ m, candidateName (c :: bs) m = c :: (bs ++ (candidateName [] m)) := by
    intro m
    cases m with
    | zero => simp [candidateName]
    | succ m' => simp [candidateName]
  have hnp : ∀ m, (candidateName (c :: bs) m).head? ≠ some '/' := by
    intro m
    rw [hhead m]
    simp [hc]
  apply candidateName_inj (k := k) (j := j)
  have hpj : ∀ m, candidatePath dir (c :: bs) m =
      (if dir = ([] : Str) then candidateName (c :: bs) m
       else if dir.getLast? = some '/' then dir ++ candidateName (c :: bs) m
       else dir ++ '/' :: candidateName (c :: bs) m) := by
    intro m
    unfold candidatePath pathJoin
    rw [if_neg (hnp m)]
  rw [hpj k, hpj j] at h
  by_cases hd : dir = ([] : Str)
  · rw [if_pos hd, if_pos hd] at h
    exact h
  · rw [if_neg hd, if_neg hd] at h
    by_cases hl : dir.getLast? = some '/'
    · rw [if_pos hl, if_pos hl] at h
      exact List.append_cancel_left h
    · rw [if_neg hl, if_neg hl] at h
      have := List.append_cancel_left h
      simpa using this

theorem existsS_mem {s : Store} {p : Str} (h : existsS s p = true) :
    p ∈ s.map (fun e => e.1) := by
  unfold existsS readS at h
  cases hf : s.find? (fun e => e.1 == p) with
  | none => rw [hf] at h; simp at h
  | some e =>
    have hm := List.mem_of_find?_eq_some hf
    have hp := List.find?_some hf
    simp at hp
    rw [← hp]
    exact List.mem_map_of_mem _ hm

theorem probe_exists (store : Store) (dir : Str) {baseName : Str} {c : Char}
    {bs : Str} (hbn : baseName = c :: bs) (hc : c ≠ '/') :
    ∃ k, k ≤ store.length ∧ existsS store (candidatePath dir baseName k) = false := by
  by_contra hall
  push_neg at hall
  have hall' : ∀ k ≤ store.length, existsS store (candidatePath dir baseName k) = true := by
    intro k hk
    have := hall k hk
    simpa using this
  have hsub : ∀ x ∈ (List.range (store.length + 1)).map
      (candidatePath dir baseName), x ∈ store.map (fun e => e.1) := by
    intro x hx
    obtain ⟨k, hk, rfl⟩ := List.mem_map.mp hx
    have hk' : k ≤ store.length := by
      have := List.mem_range.mp hk
      omega
    exact existsS_mem (hall' k hk')
  have hnd : ((List.range (store.length + 1)).map
      (candidatePath dir baseName)).Nodup := by
    apply List.Nodup.map
    · intro a b hab
      exact candidatePath_inj hbn hc hab
    · exact List.nodup_range _
  have := nodup_subset_length _ _ hnd hsub
  simp at this

theorem probeFrom_some (store : Store) (dir baseName : Str) :
    ∀ (fuel k : Nat), (∃ j, j < fuel ∧
      existsS store (candidatePath dir baseName (k + j)) = false) →
    ∃ p, probeFrom store dir baseName fuel k = some p := by
  intro fuel
  induction fuel with
  | zero =>
    intro k h
    obtain ⟨j, hj, _⟩ := h
    omega
  | succ f ih =>
    intro k h
    unfold probeFrom
    by_cases he : existsS store (candidatePath dir baseName k) = true
    · rw [if_pos he]
      obtain ⟨j, hj, hfree⟩ := h
      cases j with
      | zero =>
        simp at hfree
        rw [hfree] at he
        exact Bool.noConfusion he
      | succ j' =>
        apply ih (k + 1)
        exact ⟨j', by omega, by rw [show k + 1 + j' = k + (j' + 1) by omega]; exact hfree⟩
    · rw [if_neg he]
      exact ⟨_, rfl⟩

theorem probeFrom_spec (store : Store) (dir baseName : Str) :
    ∀ (fuel k : Nat) (p : Str), probeFrom store dir baseName fuel k = some p →
    ∃ j, p = candidatePath dir baseName (k + j) ∧
      existsS store (candidatePath dir baseName (k + j)) = false ∧
      ∀ i, i < j → existsS store (candidatePath dir baseName (k + i)) = true := by
  intro fuel
  induction fuel with
  | zero => intro k p h; simp [probeFrom] at h
  | succ f ih =>
    intro k p h
    unfold probeFrom at h
    by_cases he : existsS store (candidatePath dir baseName k) = true
    · rw [if_pos he] at h
      obtain ⟨j, hp, hfree, hbefore⟩ := ih (k + 1) p h
      refine ⟨j + 1, by rw [show k + (j + 1) = k + 1 + j by omega]; exact hp,
        by rw [show k + (j + 1) = k + 1 + j by omega]; exact hfree, ?_⟩
      intro i hi
      cases i with
      | zero => simpa using he
      | succ i' =>
        rw [show k + (i' + 1) = k + 1 + i' by omega]
        exact hbefore i' (by omega)
    · rw [if_neg he] at h
      simp only [Option.some.injEq] at h
      exact ⟨0, by rw [← h]; simp, by simpa using he, by omega⟩

theorem processAll_append (pre : List Str) :
    ∀ (t : Str) (post : List Str),
    processAll t (pre ++ post) = match processAll t pre with
      | Except.ok c => processAll c post
      | Except.error e => Except.error e := by
  induction pre with
  | nil => intro t post; rfl
  | cons f fs ih =>
    intro t post
    have hl : processAll t ((f :: fs) ++ post) = (match processOne t f with
      | Except.ok c => processAll c (fs ++ post)
      | Except.error e => Except.error e) := rfl
    have hr : processAll t (f :: fs) = (match processOne t f with
      | Except.ok c => processAll c fs
      | Except.error e => Except.error e) := rfl
    rw [hl, hr]
    cases hpo : processOne t f with
    | ok c => exact ih c post
    | error e => rfl

theorem readS_writeS_self : ∀ (s : Store) (p c : Str),
    readS (writeS s p c) p = some c := by
  intro s
  induction s with
  | nil => intro p c; simp [writeS, readS]
  | cons e es ih =>
    intro p c
    unfold writeS
    by_cases he : e.1 == p
    · rw [if_pos he]
      simp [readS]
    · rw [if_neg he]
      unfold readS
      rw [List.find?_cons_of_neg _ (by simpa using he)]
      exact ih p c

theorem existsS_writeS_self (s : Store) (p c : Str) :
    existsS (writeS s p c) p = true := by
  unfold existsS
  rw [readS_writeS_self]
  rfl

theorem isDirective_of_matchD {base d : Str} (h : matchD base d = some (d, [])) :
    isDirective base d := by
  have := matchD_sound h
  exact this.2

theorem slice_clamp (A : Str) (i j : Nat) :
    ∃ i' j', i' ≤ A.length ∧ j' ≤ A.length ∧
      (A.drop i).take j = (A.drop i').take j' := by
  refine ⟨min i A.length, min j A.length, Nat.min_le_right _ _, Nat.min_le_right _ _, ?_⟩
  have hdrop : A.drop i = A.drop (min i A.length) := by
    rcases Nat.le_total i A.length with h | h
    · rw [Nat.min_eq_left h]
    · rw [Nat.min_eq_right h, List.drop_eq_nil_of_le h, List.drop_length]
  rw [← hdrop]
  rcases Nat.le_total j A.length with h | h
  · rw [Nat.min_eq_left h]
  · rw [Nat.min_eq_right h]
    have hs : (A.drop i).length ≤ A.length := by
      rw [List.length_drop]
      omega
    rw [List.take_of_length_le (le_trans hs h), List.take_of_length_le hs]

/-- Decidable check that no substring of `A` is an inclusion directive. -/
def noDirSubB (base A : Str) : Bool :=
  (List.range (A.length + 1)).all fun i =>
    (List.range (A.length + 1)).all fun j =>
      matchD base ((A.drop i).take j) != some ((A.drop i).take j, [])

theorem noDirSub_of_B {base A : Str} (h : noDirSubB base A = true) :
    noDirSub base A := by
  intro i j hdir
  obtain ⟨i', j', hi', hj', heq⟩ := slice_clamp A i j
  rw [heq] at hdir
  have hm : matchD base ((A.drop i').take j') = some ((A.drop i').take j', []) := by
    have := matchD_exact hdir []
    rwa [List.append_nil] at this
  have hb := List.all_eq_true.mp h i' (List.mem_range.mpr (by omega))
  have hb' := List.all_eq_true.mp hb j' (List.mem_range.mpr (by omega))
  simp at hb'
  exact hb' hm

theorem exists_append_iff_isPrefixOf {α : Type} [DecidableEq α] :
    ∀ (a b : List α), (∃ u, a ++ u = b) ↔ a.isPrefixOf b = true := by
  intro a
  induction a with
  | nil =>
    intro b
    simp [List.isPrefixOf]
  | cons x xs ih =>
    intro b
    cases b with
    | nil =>
      simp [List.isPrefixOf]
    | cons y ys =>
      simp only [List.isPrefixOf, List.cons_append, List.cons.injEq, Bool.and_eq_true,
        beq_iff_eq]
      constructor
      · rintro ⟨u, rfl, hu⟩
        exact ⟨rfl, (ih ys).mp ⟨u, hu⟩⟩
      · rintro ⟨rfl, hp⟩
        obtain ⟨u, hu⟩ := (ih ys).mpr hp
        exact ⟨u, rfl, hu⟩

theorem registered_good : ∀ b ∈ registeredNames,
    (92 : Nat) ∉ lowerL b ∧ (125 : Nat) ∉ lowerL b := by decide

theorem registered_nonprefix : ∀ x ∈ registeredNames, ∀ y ∈ registeredNames,
    x ≠ y → (lowerL x).isPrefixOf (lowerL y) = false ∧
      (lowerL y).isPrefixOf (lowerL x) = false := by decide

theorem processOne_unreg {t f : Str} (h : deriveBase f ∉ registeredNames) :
    processOne t f = Except.ok t := by
  unfold processOne
  rw [if_neg h]

theorem processOne_reg_ok {t f : Str} (h : deriveBase f ∈ registeredNames)
    (hn : (subnL (deriveBase f) (replFor f) t).2 ≠ 0) :
    processOne t f = Except.ok (subnL (deriveBase f) (replFor f) t).1 := by
  unfold processOne
  rw [if_pos h, if_neg hn]

theorem processOne_reg_err {t f : Str} (h : deriveBase f ∈ registeredNames)
    (hz : (subnL (deriveBase f) (replFor f) t).2 = 0) :
    processOne t f = Except.error (repointErrMsg (deriveBase f)) := by
  unfold processOne
  rw [if_pos h, if_pos hz]

theorem update_eq {store : Store} {orig : Str} (fs : List Str)
    (hread : readS store CV_MAIN_TEX_PATH = some orig) :
    update_main_tex_with_new_sections store fs =
      (match processAll orig fs with
       | Except.error e => (store, Except.error (wrapUpdateErr e))
       | Except.ok modified =>
         if modified = orig then (store, Except.ok false)
         else (writeS store CV_MAIN_TEX_PATH modified, Except.ok true)) := by
  unfold update_main_tex_with_new_sections
  rw [hread]

theorem lookupPath_mem {sec canonical : Str} (h : lookupPath sec = some canonical) :
    (sec, canonical) ∈ CV_SECTIONS_PATHS := by
  unfold lookupPath at h
  cases hf : CV_SECTIONS_PATHS.find? (fun e => e.1 == sec) with
  | none => rw [hf] at h; simp at h
  | some e =>
    rw [hf] at h
    simp at h
    have hm := List.mem_of_find?_eq_some hf
    have hp := List.find?_some hf
    simp at hp
    have he : e = (sec, canonical) := by
      cases e with
      | mk a b =>
        simp at hp h
        rw [hp, h]
    rw [← he]
    exact hm

theorem sec_cases {sec canonical : Str} (h : (sec, canonical) ∈ CV_SECTIONS_PATHS) :
    sec = "heading".toList ∨ sec = "education".toList ∨
      sec = "experience".toList ∨ sec = "additional_experience".toList ∨
      sec = "skills".toList := by
  simp [CV_SECTIONS_PATHS] at h
  rcases h with ⟨h, _⟩ | ⟨h, _⟩ | ⟨h, _⟩ | ⟨h, _⟩ | ⟨h, _⟩ <;> simp [h]

/-- Split a path on slashes. -/
def splitSlash : Str → List Str
  | [] => [[]]
  | c :: cs =>
    let r := splitSlash cs
    if c = '/' then [] :: r
    else
      match r with
      | [] => [[c]]
      | h :: t2 => (c :: h) :: t2

/-- Resolve `.`, empty and `..` components against a reversed stack of
already-normalized components. -/
def normStack : List Str → List Str → List Str
  | acc, [] => acc
  | acc, seg :: rest =>
    if seg = [] ∨ seg = ['.'] then normStack acc rest
    else if seg = ['.', '.'] then
      (match acc with
       | [] => normStack [seg] rest
       | a :: as =>
         if a = ['.', '.'] then normStack (seg :: a :: as) rest
         else normStack as rest)
    else normStack (seg :: acc) rest

/-- POSIX-style relative-path normalization: split on slashes, drop empty
and `.` components, resolve `..` against the previous component, keep
leading `..` components. -/
def normalizePosix (p : Str) : Str :=
  List.intercalate ['/'] (normStack [] (splitSlash p)).reverse

theorem readSections_ok (store : Store) :
    ∀ l : List (Str × Str), (∀ e ∈ l, ∃ ct, readS store e.2 = some ct) →
    ∃ m, readSections store l = Except.ok m ∧
      ∀ e ∈ l, ∃ ct, (e.1, ct) ∈ m ∧ readS store e.2 = some ct := by
  intro l
  induction l with
  | nil => intro _; exact ⟨[], rfl, by simp⟩
  | cons e rest ih =>
    intro hall
    obtain ⟨ct, hct⟩ := hall e (List.mem_cons_self e rest)
    obtain ⟨m, hm, hprop⟩ := ih (fun x hx => hall x (List.mem_cons_of_mem e hx))
    cases e with
    | mk sec path =>
      refine ⟨(sec, ct) :: m, ?_, ?_⟩
      · show (match readS store path with
          | some content =>
            (match readSections store rest with
             | Except.ok m => Except.ok ((sec, content) :: m)
             | Except.error e => Except.error e)
          | none => Except.error (readSectionErr sec)) = _
        rw [hct, hm]
      · intro x hx
        rcases List.mem_cons.mp hx with rfl | hx'
        · exact ⟨ct, List.mem_cons_self _ _, hct⟩
        · obtain ⟨ct', hmem, hr⟩ := hprop x hx'
          exact ⟨ct', List.mem_cons_of_mem _ hmem, hr⟩

theorem readSections_err (store : Store) :
    ∀ l : List (Str × Str), (∃ e ∈ l, readS store e.2 = none) →
    ∃ sec path, (sec, path) ∈ l ∧ readS store path = none ∧
      readSections store l = Except.error (readSectionErr sec) := by
  intro l
  induction l with
  | nil => intro h; simp at h
  | cons e rest ih =>
    intro hex
    cases e with
    | mk sec path =>
      cases hr : readS store path with
      | none =>
        refine ⟨sec, path, List.mem_cons_self _ _, hr, ?_⟩
        show (match readS store path with
          | some content =>
            (match readSections store rest with
             | Except.ok m => Except.ok ((sec, content) :: m)
             | Except.error e => Except.error e)
          | none => Except.error (readSectionErr sec)) = _
        rw [hr]
      | some ct =>
        have hex' : ∃ x ∈ rest, readS store x.2 = none := by
          obtain ⟨x, hx, hnone⟩ := hex
          rcases List.mem_cons.mp hx with rfl | hx'
          · rw [hr] at hnone
            exact Option.noConfusion hnone
          · exact ⟨x, hx', hnone⟩
        obtain ⟨s', p', hm, hn, he⟩ := ih hex'
        refine ⟨s', p', List.mem_cons_of_mem _ hm, hn, ?_⟩
        show (match readS store path with
          | some content =>
            (match readSections store rest with
             | Except.ok m => Except.ok ((sec, content) :: m)
             | Except.error e => Except.error e)
          | none => Except.error (readSectionErr sec)) = _
        rw [hr, he]

theorem beforeSub_strip {stem : Str} (h : '.' ∉ stem) :
    beforeSub litDotTex (stem ++ litDotTex) = stem := by
  induction stem with
  | nil =>
    show beforeSub litDotTex litDotTex = []
    unfold beforeSub litDotTex
    simp [List.isPrefixOf]
  | cons c cs ih =>
    have hc : c ≠ '.' := fun he => h (he ▸ List.mem_cons_self c cs)
    have hcs : '.' ∉ cs := fun hm => h (List.mem_cons_of_mem c hm)
    show beforeSub litDotTex (c :: (cs ++ litDotTex)) = c :: cs
    unfold beforeSub
    rw [if_neg (by
      rw [show litDotTex = '.' :: "tex".toList from by decide]
      simp [List.isPrefixOf]
      intro habs
      exact absurd habs.symm hc)]
    rw [ih hcs]

/-- C9: `update_main_tex_with_new_sections` derives the logical name of a
filename by stripping the `.tex` extension and taking the text before the
first `-`; in particular `experience-acme_swe.tex ↦ experience` and
`experience.tex ↦ experience`. -/
theorem c9_derive_base :
    (∀ stem : Str, '.' ∉ stem →
      deriveBase (stem ++ litDotTex) = beforeSub ['-'] stem) ∧
    deriveBase ("experience-acme_swe.tex".toList) = "experience".toList ∧
    deriveBase ("experience.tex".toList) = "experience".toList := by
  refine ⟨?_, by decide, by decide⟩
  intro stem h
  unfold deriveBase
  rw [beforeSub_strip h]

/-- Witness for C9 at a concrete filename. -/
theorem c9_derive_base_witness :
    '.' ∉ ("skills-acme".toList : Str) ∧
      deriveBase ("skills-acme".toList ++ litDotTex) =
        beforeSub ['-'] ("skills-acme".toList) :=
  ⟨by decide, c9_derive_base.1 ("skills-acme".toList) (by decide)⟩

theorem processAll_unreg {fs : List Str} (h : ∀ f ∈ fs, deriveBase f ∉ registeredNames) :
    ∀ t, processAll t fs = Except.ok t := by
  induction fs with
  | nil => intro t; rfl
  | cons f fs' ih =>
    intro t
    show (match processOne t f with
      | Except.ok c => processAll c fs'
      | Except.error e => Except.error e) = _
    rw [processOne_unreg (h f (List.mem_cons_self f fs'))]
    exact ih (fun x hx => h x (List.mem_cons_of_mem f hx)) t

/-- C7: filenames whose derived logical name is not registered are skipped
without error, and a call consisting only of such filenames reports
`changed = false` and performs no write to the store. -/
theorem c7_skip_unregistered (store : Store) (orig : Str) (fs : List Str)
    (hread : readS store CV_MAIN_TEX_PATH = some orig)
    (hfs : ∀ f ∈ fs, deriveBase f ∉ registeredNames) :
    update_main_tex_with_new_sections store fs = (store, Except.ok false) := by
  rw [update_eq fs hread, processAll_unreg hfs]
  simp

/-- Witness for C7: a bogus filename against a one-file store. -/
theorem c7_skip_unregistered_witness :
    update_main_tex_with_new_sections
        [(CV_MAIN_TEX_PATH, "\\input\x7bsections/skills.tex\x7d".toList)]
        ["bogus_section-x.tex".toList] =
      ([(CV_MAIN_TEX_PATH, "\\input\x7bsections/skills.tex\x7d".toList)],
        Except.ok false) :=
  c7_skip_unregistered _ ("\\input\x7bsections/skills.tex\x7d".toList) _
    (by decide) (by decide)

/-- C6: if reading any registered section's canonical file fails,
`get_full_resume` fails as a whole with an error naming a failing logical
section and the caller receives no partial mapping; on success the returned
mapping has an entry for every registered section. -/
theorem c6_reader_all_or_nothing (store : Store) :
    ((∀ e ∈ CV_SECTIONS_PATHS, readS store e.2 ≠ none) →
      ∃ m, get_full_resume store = Except.ok m ∧
        ∀ e ∈ CV_SECTIONS_PATHS, ∃ content, (e.1, content) ∈ m ∧
          readS store e.2 = some content) ∧
    ((∃ e ∈ CV_SECTIONS_PATHS, readS store e.2 = none) →
      ∃ sec path, (sec, path) ∈ CV_SECTIONS_PATHS ∧ readS store path = none ∧
        get_full_resume store = Except.error (readSectionErr sec)) := by
  constructor
  · intro hall
    apply readSections_ok
    intro e he
    rcases ho : readS store e.2 with _ | ct
    · exact absurd ho (hall e he)
    · exact ⟨ct, rfl⟩
  · intro hex
    exact readSections_err store CV_SECTIONS_PATHS hex

/-- Witness for C6: a store missing the experience file. -/
theorem c6_reader_witness :
    ∃ sec path, (sec, path) ∈ CV_SECTIONS_PATHS ∧
      readS [("sections/heading.tex".toList, "H".toList),
             ("sections/education.tex".toList, "E".toList)] path = none ∧
      get_full_resume [("sections/heading.tex".toList, "H".toList),
             ("sections/education.tex".toList, "E".toList)] =
        Except.error (readSectionErr sec) :=
  (c6_reader_all_or_nothing _).2 ⟨("experience".toList, "sections/experience.tex".toList),
    by decide, by decide⟩

/-- C1: if a filename in the list targets a registered logical section whose
inclusion-directive pattern has zero matches in the current master-document
text, the whole operation fails with the `RepointError` message naming that
section and the store is left unchanged, even when earlier filenames have
already produced replacements. -/
theorem c1_repoint_fail_fast (store : Store) (orig cur : Str) (pre post : List Str)
    (f : Str) (hread : readS store CV_MAIN_TEX_PATH = some orig)
    (hpre : processAll orig pre = Except.ok cur)
    (hreg : deriveBase f ∈ registeredNames)
    (hzero : (subnL (deriveBase f) (replFor f) cur).2 = 0) :
    update_main_tex_with_new_sections store (pre ++ f :: post) =
      (store, Except.error (wrapUpdateErr (repointErrMsg (deriveBase f)))) ∧
    ∃ a b : Str, repointErrMsg (deriveBase f) = a ++ deriveBase f ++ b := by
  constructor
  · rw [update_eq (pre ++ f :: post) hread, processAll_append pre orig (f :: post), hpre]
    show (match (match processOne cur f with
        | Except.ok c => processAll c post
        | Except.error e => Except.error e) with
      | Except.error e => (store, Except.error (wrapUpdateErr e))
      | Except.ok modified => _) = _
    rw [processOne_reg_err hreg hzero]
  · exact ⟨_, _, rfl⟩

/-- Witness for C1: the skills entry is repointed first, then an experience
entry finds no match and the whole call fails without a write. -/
theorem c1_repoint_fail_fast_witness :
    update_main_tex_with_new_sections
        [(CV_MAIN_TEX_PATH, "A \\input\x7bsections/skills.tex\x7d B".toList)]
        ["skills-acme.tex".toList, "experience-x.tex".toList] =
      ([(CV_MAIN_TEX_PATH, "A \\input\x7bsections/skills.tex\x7d B".toList)],
        Except.error (wrapUpdateErr (repointErrMsg
          (deriveBase ("experience-x.tex".toList))))) :=
  (c1_repoint_fail_fast _ ("A \\input\x7bsections/skills.tex\x7d B".toList)
      ("A \\input\x7bsections/skills-acme.tex\x7d B".toList)
      ["skills-acme.tex".toList] [] _ (by decide) (by rfl) (by decide)
      (by decide)).1

/-- C8: for a registered section, the compiled inclusion-directive pattern
matches exactly the directives of the grammar `\input{ [./]sections/S[-suffix].tex }`
with arbitrary internal whitespace, case-insensitively — it matches every
such directive for `S` (canonical or tailored) and never matches a
directive of a different registered section. -/
theorem c8_pattern_grammar (S : Str) (hS : S ∈ registeredNames) :
    (∀ d t, isDirective S d → matchD S (d ++ t) = some (d, t)) ∧
    (∀ t d r, matchD S t = some (d, r) → t = d ++ r ∧ isDirective S d) ∧
    (∀ S' d t, S' ∈ registeredNames → S' ≠ S → isDirective S' d →
      matchD S (d ++ t) = none) := by
  refine ⟨fun d t hd => matchD_exact hd t, fun t d r h => matchD_sound h, ?_⟩
  intro S' d t hS' hne hd
  have h1 := (registered_good S hS).2
  have h2 := (registered_good S' hS').2
  have hp := registered_nonprefix S hS S' hS' (fun he => hne he.symm)
  apply matchD_none_of_other hd h1 h2
  · intro hex
    have hb := (exists_append_iff_isPrefixOf (lowerL S) (lowerL S')).mp hex
    rw [hp.1] at hb
    exact Bool.noConfusion hb
  · intro hex
    have hb := (exists_append_iff_isPrefixOf (lowerL S') (lowerL S)).mp hex
    rw [hp.2] at hb
    exact Bool.noConfusion hb

/-- Witness for C8: the experience pattern accepts a mixed-case, tailored,
relative-path directive and rejects a skills directive. -/
theorem c8_pattern_grammar_witness :
    matchD ("experience".toList)
        ("\\INPUT \x7b ./sections/EXPERIENCE-a_1.b.TEX \x7d".toList ++ "Q".toList) =
      some ("\\INPUT \x7b ./sections/EXPERIENCE-a_1.b.TEX \x7d".toList, "Q".toList) ∧
    matchD ("experience".toList)
        ("\\input\x7bsections/skills.tex\x7d".toList ++ "Q".toList) = none :=
  ⟨(c8_pattern_grammar _ (by decide)).1 _ _ (isDirective_of_matchD (by decide)),
   (c8_pattern_grammar _ (by decide)).2.2 ("skills".toList)
     ("\\input\x7bsections/skills.tex\x7d".toList) ("Q".toList)
     (by decide) (by decide) (isDirective_of_matchD (by decide))⟩

theorem processAll_single {t f : Str} : processAll t [f] = processOne t f := by
  show (match processOne t f with
    | Except.ok c => processAll c []
    | Except.error e => Except.error e) = _
  cases h : processOne t f <;> rfl

theorem renderDoc_single (a0 d a1 : Str) : renderDoc a0 [(d, a1)] = a0 ++ d ++ a1 := by
  simp [renderDoc]

theorem scan_single {S r A0 D A1 : Str} (hbb : (92 : Nat) ∉ lowerL S)
    (hdir : isDirective S D) (hnd0 : noDirSub S A0) (hnd1 : noDirSub S A1) :
    subnL S r (A0 ++ D ++ A1) = (A0 ++ r ++ A1, 1) := by
  have h := scan_doc r hbb [(D, A1)] A0 hnd0 (by
    intro p hp
    rcases List.mem_cons.mp hp with rfl | habs
    · exact ⟨hdir, hnd1⟩
    · simp at habs)
  rw [renderDoc_single] at h
  simpa [renderDoc] using h

/-- C2: a successful single-file repoint of section `S` maps a master
document with exactly one `S` inclusion directive, byte for byte, from
`A0 ++ D ++ A1` to `A0 ++ \input{sections/F} ++ A1`: the `S` directive now
references the supplied file, there is still exactly one `S` directive, and
every other directive and all non-directive content (inside `A0` and `A1`)
is unchanged. -/
theorem c2_repoint_frame (store : Store) (A0 D A1 F S : Str)
    (hread : readS store CV_MAIN_TEX_PATH = some (A0 ++ D ++ A1))
    (hS : deriveBase F = S) (hreg : S ∈ registeredNames)
    (hdir : isDirective S D) (hnd0 : noDirSub S A0) (hnd1 : noDirSub S A1)
    (hrepl : isDirective S (replFor F)) :
    ∃ st' ch, update_main_tex_with_new_sections store [F] = (st', Except.ok ch) ∧
      readS st' CV_MAIN_TEX_PATH = some (A0 ++ replFor F ++ A1) ∧
      (subnL S (replFor F) (A0 ++ replFor F ++ A1)).2 = 1 := by
  have hbb := (registered_good S hreg).1
  have scan1 : subnL S (replFor F) (A0 ++ D ++ A1) = (A0 ++ replFor F ++ A1, 1) :=
    scan_single hbb hdir hnd0 hnd1
  have scan2 : subnL S (replFor F) (A0 ++ replFor F ++ A1) =
      (A0 ++ replFor F ++ A1, 1) := scan_single hbb hrepl hnd0 hnd1
  have hpo : processOne (A0 ++ D ++ A1) F = Except.ok (A0 ++ replFor F ++ A1) := by
    have h := processOne_reg_ok (t := A0 ++ D ++ A1) (f := F)
      (by rw [hS]; exact hreg) (by rw [hS, scan1]; simp)
    rw [hS, scan1] at h
    exact h
  have hupd : update_main_tex_with_new_sections store [F] =
      (if A0 ++ replFor F ++ A1 = A0 ++ D ++ A1 then (store, Except.ok false)
       else (writeS store CV_MAIN_TEX_PATH (A0 ++ replFor F ++ A1),
         Except.ok true)) := by
    rw [update_eq [F] hread, processAll_single, hpo]
  by_cases heq : A0 ++ replFor F ++ A1 = A0 ++ D ++ A1
  · rw [hupd, if_pos heq]
    refine ⟨store, false, rfl, ?_, scan2.symm ▸ rfl⟩
    rw [hread, heq]
  · rw [hupd, if_neg heq]
    refine ⟨_, true, rfl, ?_, scan2.symm ▸ rfl⟩
    exact readS_writeS_self store CV_MAIN_TEX_PATH (A0 ++ replFor F ++ A1)

/-- Witness for C2 on a concrete master document. -/
theorem c2_repoint_frame_witness :
    ∃ st' ch, update_main_tex_with_new_sections
        [(CV_MAIN_TEX_PATH,
          ("X ".toList ++ "\\input\x7b./sections/experience.tex\x7d".toList ++
            " \\input\x7bsections/skills.tex\x7d".toList))]
        ["experience-acme_swe.tex".toList] = (st', Except.ok ch) ∧
      readS st' CV_MAIN_TEX_PATH = some ("X ".toList ++
        replFor ("experience-acme_swe.tex".toList) ++
        " \\input\x7bsections/skills.tex\x7d".toList) ∧
      (subnL ("experience".toList) (replFor ("experience-acme_swe.tex".toList))
        ("X ".toList ++ replFor ("experience-acme_swe.tex".toList) ++
          " \\input\x7bsections/skills.tex\x7d".toList)).2 = 1 :=
  c2_repoint_frame _ ("X ".toList)
    ("\\input\x7b./sections/experience.tex\x7d".toList)
    (" \\input\x7bsections/skills.tex\x7d".toList)
    ("experience-acme_swe.tex".toList) ("experience".toList)
    (by decide) (by decide) (by decide)
    (isDirective_of_matchD (by decide))
    (noDirSub_of_B (by decide)) (noDirSub_of_B (by decide))
    (isDirective_of_matchD (by decide))

/-- C5: with exactly one `S` directive present and `F` a well-formed
tailored filename for `S` not currently included, the first repoint call
reports `changed = true` and rewrites the document, the second call is a
no-op reporting `changed = false` with no store write, and after each call
the pattern for `S` matches exactly once in the master document. -/
theorem c5_repoint_idempotent (store : Store) (A0 D A1 F S : Str)
    (hread : readS store CV_MAIN_TEX_PATH = some (A0 ++ D ++ A1))
    (hS : deriveBase F = S) (hreg : S ∈ registeredNames)
    (hdir : isDirective S D) (hnd0 : noDirSub S A0) (hnd1 : noDirSub S A1)
    (hrepl : isDirective S (replFor F)) (hne : D ≠ replFor F) :
    update_main_tex_with_new_sections store [F] =
      (writeS store CV_MAIN_TEX_PATH (A0 ++ replFor F ++ A1), Except.ok true) ∧
    update_main_tex_with_new_sections
        (writeS store CV_MAIN_TEX_PATH (A0 ++ replFor F ++ A1)) [F] =
      (writeS store CV_MAIN_TEX_PATH (A0 ++ replFor F ++ A1), Except.ok false) ∧
    (subnL S (replFor F) (A0 ++ D ++ A1)).2 = 1 ∧
    (subnL S (replFor F) (A0 ++ replFor F ++ A1)).2 = 1 := by
  have hbb := (registered_good S hreg).1
  have scan1 : subnL S (replFor F) (A0 ++ D ++ A1) = (A0 ++ replFor F ++ A1, 1) :=
    scan_single hbb hdir hnd0 hnd1
  have scan2 : subnL S (replFor F) (A0 ++ replFor F ++ A1) =
      (A0 ++ replFor F ++ A1, 1) := scan_single hbb hrepl hnd0 hnd1
  have hpo : processOne (A0 ++ D ++ A1) F = Except.ok (A0 ++ replFor F ++ A1) := by
    have h := processOne_reg_ok (t := A0 ++ D ++ A1) (f := F)
      (by rw [hS]; exact hreg) (by rw [hS, scan1]; simp)
    rw [hS, scan1] at h
    exact h
  have hpo2 : processOne (A0 ++ replFor F ++ A1) F =
      Except.ok (A0 ++ replFor F ++ A1) := by
    have h := processOne_reg_ok (t := A0 ++ replFor F ++ A1) (f := F)
      (by rw [hS]; exact hreg) (by rw [hS, scan2]; simp)
    rw [hS, scan2] at h
    exact h
  have hneq : A0 ++ replFor F ++ A1 ≠ A0 ++ D ++ A1 := by
    intro habs
    have h1 := List.append_cancel_right habs
    have h2 := List.append_cancel_left h1
    exact hne h2.symm
  refine ⟨?_, ?_, by rw [scan1], by rw [scan2]⟩
  · rw [update_eq [F] hread, processAll_single, hpo]
    show (if A0 ++ replFor F ++ A1 = A0 ++ D ++ A1 then (store, Except.ok false)
      else (writeS store CV_MAIN_TEX_PATH (A0 ++ replFor F ++ A1),
        Except.ok true)) = _
    rw [if_neg hneq]
  · have hread2 : readS (writeS store CV_MAIN_TEX_PATH (A0 ++ replFor F ++ A1))
        CV_MAIN_TEX_PATH = some (A0 ++ replFor F ++ A1) :=
      readS_writeS_self store CV_MAIN_TEX_PATH (A0 ++ replFor F ++ A1)
    rw [update_eq [F] hread2, processAll_single, hpo2]
    show (if A0 ++ replFor F ++ A1 = A0 ++ replFor F ++ A1 then
        (writeS store CV_MAIN_TEX_PATH (A0 ++ replFor F ++ A1), Except.ok false)
      else (writeS (writeS store CV_MAIN_TEX_PATH (A0 ++ replFor F ++ A1))
        CV_MAIN_TEX_PATH (A0 ++ replFor F ++ A1), Except.ok true)) = _
    rw [if_pos rfl]

/-- Witness for C5 on a concrete master document. -/
theorem c5_repoint_idempotent_witness :
    update_main_tex_with_new_sections
        [(CV_MAIN_TEX_PATH,
          ("Y ".toList ++ "\\input\x7bsections/experience.tex\x7d".toList ++
            " Z".toList))]
        ["experience-acme_swe.tex".toList] =
      (writeS [(CV_MAIN_TEX_PATH,
          ("Y ".toList ++ "\\input\x7bsections/experience.tex\x7d".toList ++
            " Z".toList))] CV_MAIN_TEX_PATH
        ("Y ".toList ++ replFor ("experience-acme_swe.tex".toList) ++ " Z".toList),
        Except.ok true) ∧
    update_main_tex_with_new_sections
        (writeS [(CV_MAIN_TEX_PATH,
          ("Y ".toList ++ "\\input\x7bsections/experience.tex\x7d".toList ++
            " Z".toList))] CV_MAIN_TEX_PATH
          ("Y ".toList ++ replFor ("experience-acme_swe.tex".toList) ++ " Z".toList))
        ["experience-acme_swe.tex".toList] =
      (writeS [(CV_MAIN_TEX_PATH,
          ("Y ".toList ++ "\\input\x7bsections/experience.tex\x7d".toList ++
            " Z".toList))] CV_MAIN_TEX_PATH
        ("Y ".toList ++ replFor ("experience-acme_swe.tex".toList) ++ " Z".toList),
        Except.ok false) ∧
    (subnL ("experience".toList) (replFor ("experience-acme_swe.tex".toList))
      ("Y ".toList ++ "\\input\x7bsections/experience.tex\x7d".toList ++
        " Z".toList)).2 = 1 ∧
    (subnL ("experience".toList) (replFor ("experience-acme_swe.tex".toList))
      ("Y ".toList ++ replFor ("experience-acme_swe.tex".toList) ++
        " Z".toList)).2 = 1 :=
  c5_repoint_idempotent _ ("Y ".toList)
    ("\\input\x7bsections/experience.tex\x7d".toList) (" Z".toList)
    ("experience-acme_swe.tex".toList) ("experience".toList)
    (by decide) (by decide) (by decide)
    (isDirective_of_matchD (by decide))
    (noDirSub_of_B (by decide)) (noDirSub_of_B (by decide))
    (isDirective_of_matchD (by decide)) (by decide)

theorem create_eq {store : Store} {sec slug content canonical : Str}
    (hsec : lookupPath sec = some canonical) :
    create_tailored_section store sec slug content =
      (match assignPath store (dirname canonical) (sec ++ '-' :: slug) with
       | none => none
       | some p => some (writeS store p content, p)) := by
  unfold create_tailored_section
  rw [hsec]

theorem sec_nonempty_head {sec canonical : Str} (slug : Str)
    (h : (sec, canonical) ∈ CV_SECTIONS_PATHS) :
    ∃ ch bs, sec ++ '-' :: slug = ch :: bs ∧ ch ≠ '/' := by
  rcases sec_cases h with rfl | rfl | rfl | rfl | rfl
  · exact ⟨'h', "eading".toList ++ '-' :: slug, rfl, by decide⟩
  · exact ⟨'e', "ducation".toList ++ '-' :: slug, rfl, by decide⟩
  · exact ⟨'e', "xperience".toList ++ '-' :: slug, rfl, by decide⟩
  · exact ⟨'a', "dditional_experience".toList ++ '-' :: slug, rfl, by decide⟩
  · exact ⟨'s', "kills".toList ++ '-' :: slug, rfl, by decide⟩

theorem assignPath_some (store : Store) (dir : Str) {baseName : Str} {ch : Char}
    {bs : Str} (hbn : baseName = ch :: bs) (hc : ch ≠ '/') :
    ∃ p, assignPath store dir baseName = some p := by
  obtain ⟨k, hk, hfree⟩ := probe_exists store dir hbn hc
  apply probeFrom_some store dir baseName (store.length + 1) 0
  exact ⟨k, by omega, by simpa using hfree⟩

theorem assignPath_spec {store : Store} {dir baseName p : Str}
    (h : assignPath store dir baseName = some p) :
    ∃ k, p = candidatePath dir baseName k ∧
      existsS store (candidatePath dir baseName k) = false ∧
      ∀ i, i < k → existsS store (candidatePath dir baseName i) = true := by
  obtain ⟨j, hp, hfree, hbefore⟩ :=
    probeFrom_spec store dir baseName (store.length + 1) 0 p h
  refine ⟨j, by simpa using hp, by simpa using hfree, ?_⟩
  intro i hi
  have := hbefore i hi
  simpa using this

/-- C3: `create_tailored_section` assigns the first candidate path
`<dir>/<section>-<slug>.tex`, `<dir>/<section>-<slug>_1.tex`, ... that does
not already exist in the store, writes the content only there, never
overwrites an existing file, and two successive calls with identical
arguments assign two distinct paths. -/
theorem c3_create_unique (store : Store) (sec slug c1 c2 canonical : Str)
    (hsec : lookupPath sec = some canonical) :
    (∃ st1 p1, create_tailored_section store sec slug c1 = some (st1, p1)) ∧
    (∀ st1 p1, create_tailored_section store sec slug c1 = some (st1, p1) →
      st1 = writeS store p1 c1 ∧ existsS store p1 = false ∧
      (∃ k, p1 = candidatePath (dirname canonical) (sec ++ '-' :: slug) k ∧
        ∀ i, i < k →
          existsS store (candidatePath (dirname canonical) (sec ++ '-' :: slug) i)
            = true) ∧
      (∃ st2 p2, create_tailored_section st1 sec slug c2 = some (st2, p2)) ∧
      (∀ st2 p2, create_tailored_section st1 sec slug c2 = some (st2, p2) →
        p2 ≠ p1 ∧ st2 = writeS st1 p2 c2 ∧ existsS st1 p2 = false)) := by
  obtain ⟨ch, bs, hbn, hch⟩ := sec_nonempty_head slug (lookupPath_mem hsec)
  constructor
  · obtain ⟨p, hp⟩ := assignPath_some store (dirname canonical) hbn hch
    rw [create_eq hsec, hp]
    exact ⟨_, _, rfl⟩
  · intro st1 p1 h1
    rw [create_eq hsec] at h1
    cases ha : assignPath store (dirname canonical) (sec ++ '-' :: slug) with
    | none => rw [ha] at h1; exact absurd h1 (by simp)
    | some p =>
      rw [ha] at h1
      simp only [Option.some.injEq] at h1
      injection h1 with hst hp1
      subst hst
      obtain ⟨k, hpk, hfree, hbefore⟩ := assignPath_spec ha
      have hp1p : p1 = p := hp1.symm
      subst hp1p
      refine ⟨rfl, by rw [hpk]; exact hfree, ⟨k, hpk, hbefore⟩, ?_, ?_⟩
      · obtain ⟨p', hp'⟩ := assignPath_some (writeS store p1 c1)
          (dirname canonical) hbn hch
        rw [create_eq hsec, hp']
        exact ⟨_, _, rfl⟩
      · intro st2 p2 h2
        rw [create_eq hsec] at h2
        cases ha2 : assignPath (writeS store p1 c1) (dirname canonical)
            (sec ++ '-' :: slug) with
        | none => rw [ha2] at h2; exact absurd h2 (by simp)
        | some q =>
          rw [ha2] at h2
          simp only [Option.some.injEq] at h2
          injection h2 with hst2 hp2
          subst hst2
          obtain ⟨k2, hqk, hfree2, _⟩ := assignPath_spec ha2
          have hp2q : p2 = q := hp2.symm
          subst hp2q
          have hp1ex : existsS (writeS store p1 c1) p1 = true :=
            existsS_writeS_self store p1 c1
          refine ⟨?_, rfl, by rw [hqk]; exact hfree2⟩
          intro habs
          rw [habs] at hqk
          rw [← hqk] at hfree2
          rw [hp1ex] at hfree2
          exact Bool.noConfusion hfree2

/-- Witness for C3 against a store that already holds the plain candidate,
so the probe must advance to the `_1` name. -/
theorem c3_create_unique_witness :
    ∃ st1 p1, create_tailored_section
        [("sections/experience-acme.tex".toList, "OLD".toList)]
        ("experience".toList) ("acme".toList) ("C1".toList) = some (st1, p1) :=
  (c3_create_unique [("sections/experience-acme.tex".toList, "OLD".toList)]
    ("experience".toList) ("acme".toList) ("C1".toList) ("C2".toList)
    ("sections/experience.tex".toList) (by decide)).1

/-- C4 (code-bug evidence): `create_tailored_section` neither rejects nor
sanitizes the slug — a path-traversal slug is spliced verbatim into the
assigned path, which escapes the fragments directory after POSIX
normalization, and the empty slug with empty content is accepted too. -/
theorem c4_slug_not_sanitized :
    (create_tailored_section [] ("experience".toList) ("a/../../../x".toList)
        ("c".toList) =
      some ([("sections/experience-a/../../../x.tex".toList, "c".toList)],
        "sections/experience-a/../../../x.tex".toList)) ∧
    normalizePosix ("sections/experience-a/../../../x.tex".toList) =
      "../x.tex".toList ∧
    (∀ u : Str, "sections/".toList ++ u ≠
      normalizePosix ("sections/experience-a/../../../x.tex".toList)) ∧
    (∃ st p, create_tailored_section [] ("experience".toList) [] [] =
      some (st, p)) := by
  refine ⟨by decide, by decide, ?_,
    ⟨[("sections/experience-.tex".toList, ([] : Str))],
      "sections/experience-.tex".toList, by decide⟩⟩
  intro u h
  rw [show normalizePosix ("sections/experience-a/../../../x.tex".toList) =
      '.' :: "./x.tex".toList from by decide] at h
  rw [show ("sections/".toList : Str) = 's' :: "ections/".toList from rfl] at h
  rw [List.cons_append] at h
  have := List.head_eq_of_cons_eq h
  exact absurd this (by decide)

end RMCP
